import Mathlib

/-
Verification development for `extract_logs.py`: a date-indexed extractor over an
append-only, line-oriented log file.

Embedding conventions:
* A file's content is a `List Nat` of byte values; a byte position is a `Nat`.
* `f.readline()` is `readline`: it returns the bytes up to and including the next
  newline byte (10), together with the next read position.
* `bytes.decode("utf-8", errors="ignore")` is modelled by `decodeIgnore`, which keeps
  single-byte (ASCII, < 128) values and drops the rest; this agrees with Python on
  every input that contains no valid multi-byte UTF-8 sequence, and the development
  only ever relies on it for ASCII data.  The `try/except` around `.decode` in the
  source is dead code (decoding with `errors="ignore"` never raises) and is dropped.
* Python `int` values are `Int`; offsets stored in an index are `Int` because
  `load_index` produces them with `int(...)`.  File scanning positions are `Nat`;
  `int(...)` parsing is `parseInt` (optional sign followed by decimal digits; the
  PEP-515 underscore grouping that CPython also accepts is never produced by this
  program and is not modelled).
* The two persisted artifacts (`log_index.txt`, `index_info.txt`) are an
  `IndexFiles` record of `Option (List Nat)` contents (`none` = file absent).
* Python exceptions are `Except Unit`; a raised exception is `.error ()`.
* `while` loops over the file are structural recursions on an explicit fuel that is
  always at least the number of remaining bytes, which bounds the number of
  `readline` steps; with sufficient fuel they compute exactly the loop's result.
-/

/-- Bytes of an ASCII string literal, used to build concrete test data. -/
def strBytes (s : String) : List Nat := s.toList.map Char.toNat

/-- Whitespace test matching Python `str.strip` / `str.split` on ASCII bytes. -/
def isWs (b : Nat) : Bool := b == 9 || b == 10 || b == 11 || b == 12 || b == 13 || b == 32

/-- ASCII decimal digit test. -/
def isDigitB (b : Nat) : Bool := 48 ≤ b && b ≤ 57

/-- Model of `bytes.decode("utf-8", errors="ignore")`: keep ASCII bytes, drop the rest. -/
def decodeIgnore (l : List Nat) : List Nat := l.filter (fun b => decide (b < 128))

/-- Python `s.startswith(p)` on the decoded text. -/
def startsWithB (s p : List Nat) : Bool := s.take p.length == p

/-- Python string `<` (lexicographic comparison of code points). -/
def strLt : List Nat → List Nat → Bool
  | [], [] => false
  | [], _ :: _ => true
  | _ :: _, [] => false
  | a :: as, b :: bs => if a < b then true else if b < a then false else strLt as bs

/-- The non-strict order `a <= b` on date strings, as used for sorting keys. -/
abbrev dateLe (a b : List Nat) : Prop := strLt b a = false

instance : DecidableRel dateLe := fun a b => instDecidableEqBool (strLt b a) false

/-- The non-strict key order lifted to index entries. -/
abbrev entryLe (e f : List Nat × Int) : Prop := strLt f.1 e.1 = false

instance : DecidableRel entryLe := fun e f => instDecidableEqBool (strLt f.1 e.1) false

/-- Index of the first newline byte of a list, if any. -/
def idxOfNl : List Nat → Option Nat
  | [] => none
  | b :: bs => if b = 10 then some 0 else (idxOfNl bs).map (· + 1)

/-- Model of `f.readline()` at byte position `pos`: the line (terminator included)
and the position after it.  At or past end of file it returns the empty read. -/
def readline (file : List Nat) (pos : Nat) : List Nat × Nat :=
  match idxOfNl (file.drop pos) with
  | some i => ((file.drop pos).take (i + 1), pos + i + 1)
  | none => (file.drop pos, file.length)

/-- Fuelled line scanner: the `(offset, line)` pairs produced by repeated
`readline` calls starting at `pos`, as in the source's `while True` read loops. -/
def linesFromF : Nat → List Nat → Nat → List (Nat × List Nat)
  | 0, _, _ => []
  | fuel + 1, file, pos =>
    if pos < file.length then
      (pos, (readline file pos).1) :: linesFromF fuel file (readline file pos).2
    else []

/-- All `(offset, line)` pairs of `file` from position `pos` on. -/
def linesFrom (file : List Nat) (pos : Nat) : List (Nat × List Nat) :=
  linesFromF (file.length + 1 - pos) file pos

/-- Python `line.strip()` on ASCII bytes. -/
def pyStrip (s : List Nat) : List Nat :=
  ((s.dropWhile isWs).reverse.dropWhile isWs).reverse

/-- Helper for `pySplit`: accumulates the current (reversed) token. -/
def pySplitAux : List Nat → List Nat → List (List Nat)
  | [], cur => if cur = [] then [] else [cur.reverse]
  | b :: bs, cur =>
    if isWs b then
      if cur = [] then pySplitAux bs [] else cur.reverse :: pySplitAux bs []
    else pySplitAux bs (b :: cur)

/-- Python `s.split()` with no argument: split on whitespace runs, no empty fields. -/
def pySplit (s : List Nat) : List (List Nat) := pySplitAux s []

/-- Python iteration over the lines of an open text file (terminators kept). -/
def pySplitlines (c : List Nat) : List (List Nat) := (linesFrom c 0).map (fun pl => pl.2)

/-- Fuelled decimal printer accumulating the final digits first. -/
def natDigitsF : Nat → Nat → List Nat → List Nat
  | 0, _, acc => acc
  | fuel + 1, n, acc =>
    if n < 10 then (n + 48) :: acc else natDigitsF fuel (n / 10) ((n % 10 + 48) :: acc)

/-- Python `str(n)` for a natural number, as ASCII bytes. -/
def natDigits (n : Nat) : List Nat := natDigitsF (n + 1) n []

/-- Python `str(i)` for an integer, as ASCII bytes. -/
def intDigits (i : Int) : List Nat :=
  if i < 0 then 45 :: natDigits i.natAbs else natDigits i.toNat

/-- Value of a list of ASCII digit bytes read in base 10. -/
def digitsVal (bs : List Nat) : Nat := bs.foldl (fun a b => a * 10 + (b - 48)) 0

/-- Parse a nonempty all-digit byte string. -/
def parseUnsigned (bs : List Nat) : Option Nat :=
  if bs ≠ [] && bs.all isDigitB then some (digitsVal bs) else none

/-- Model of Python `int(s)` on an already-stripped string: optional sign then digits. -/
def parseInt (bs : List Nat) : Option Int :=
  match bs with
  | 43 :: rest => (parseUnsigned rest).map (fun n => (n : Int))
  | 45 :: rest => (parseUnsigned rest).map (fun n => -(n : Int))
  | _ => (parseUnsigned bs).map (fun n => (n : Int))

/-- First-match association lookup, the model of Python dict access on unique keys. -/
def lookupKey (l : List (List Nat × Int)) (k : List Nat) : Option Int :=
  match l with
  | [] => none
  | e :: t => if e.1 = k then some e.2 else lookupKey t k

/-- Python dict assignment `d[k] = v`: overwrite in place, or append a new binding. -/
def insertAssoc (l : List (List Nat × Int)) (k : List Nat) (v : Int) :
    List (List Nat × Int) :=
  match l with
  | [] => [(k, v)]
  | e :: t => if e.1 = k then (k, v) :: t else e :: insertAssoc t k v

/-- The keys of an association list. -/
def keysOf (l : List (List Nat × Int)) : List (List Nat) := l.map (fun e => e.1)

/-- Keys sorted ascending, the model of `sorted(index.keys())`. -/
def sortKeys (l : List (List Nat)) : List (List Nat) := List.insertionSort dateLe l

/-- Entries sorted by date ascending, as written by `build_index` / `update_index`. -/
def sortEntries (l : List (List Nat × Int)) : List (List Nat × Int) :=
  List.insertionSort entryLe l

/-- Text of the entry-list artifact: one `"<date> <offset>\n"` line per entry. -/
def serializeEntries (es : List (List Nat × Int)) : List Nat :=
  (es.map (fun e => e.1 ++ 32 :: (intDigits e.2 ++ [10]))).flatten

/-- The two persisted artifacts of the index store; `none` means the file is absent. -/
structure IndexFiles where
  indexFile : Option (List Nat)
  infoFile : Option (List Nat)
  deriving DecidableEq

/-- Per-line body of `load_index`: strip, split, keep two-field lines, `int` the
offset (raising on a malformed one), and store with dict-assignment semantics. -/
def loadLines : List (List Nat) → List (List Nat × Int) →
    Except Unit (List (List Nat × Int))
  | [], acc => .ok acc
  | l :: ls, acc =>
    match pySplit (pyStrip l) with
    | [d, o] =>
      match parseInt o with
      | some n => loadLines ls (insertAssoc acc d n)
      | none => .error ()
    | _ => loadLines ls acc

/-- Model of `load_index`: a missing artifact yields the empty index. -/
def load_index (content : Option (List Nat)) : Except Unit (List (List Nat × Int)) :=
  match content with
  | none => .ok []
  | some c => loadLines (pySplitlines c) []

/-- Model of reading `index_info.txt` in `update_index`: a missing file or a failed
`int(...)` both give 0. -/
def readWatermark (c : Option (List Nat)) : Int :=
  match c with
  | none => 0
  | some s => (parseInt (pyStrip s)).getD 0

/-- The date key of a line: the first 10 characters of its decoded text, if the
decoded text has at least 10 characters. -/
def lineKey (l : List Nat) : Option (List Nat) :=
  if (decodeIgnore l).length < 10 then none else some ((decodeIgnore l).take 10)

/-- One iteration of the `build_index` scan loop: record the offset of a date key
that is not yet in the index. -/
def buildStep (idx : List (List Nat × Int)) (pl : Nat × List Nat) :
    List (List Nat × Int) :=
  match lineKey pl.2 with
  | none => idx
  | some k => if (lookupKey idx k).isSome then idx else idx ++ [(k, (pl.1 : Int))]

/-- The in-memory index produced by the `build_index` scan over the whole file. -/
def buildScan (log : List Nat) : List (List Nat × Int) :=
  (linesFrom log 0).foldl buildStep []

/-- Model of `build_index`: overwrite both artifacts (the prior state is ignored,
matching the `"w"`-mode writes), entries sorted by date, watermark = file size. -/
def build_index (log : List Nat) (_st : IndexFiles) : IndexFiles :=
  { indexFile := some (serializeEntries (sortEntries (buildScan log))),
    infoFile := some (natDigits log.length) }

/-- The console outcome of `update_index`, distinguishing its three exits. -/
inductive UpdateStatus
  | noNewLogs
  | noNewDates
  | updated
  deriving DecidableEq

/-- One iteration of the `update_index` scan loop: record a date key absent from
both the loaded index and the new entries found so far. -/
def updStep (idx : List (List Nat × Int)) (acc : List (List Nat × Int))
    (pl : Nat × List Nat) : List (List Nat × Int) :=
  match lineKey pl.2 with
  | none => acc
  | some k =>
    if (lookupKey idx k).isSome || (lookupKey acc k).isSome then acc
    else acc ++ [(k, (pl.1 : Int))]

/-- Model of `update_index`.  The watermark may have been parsed from arbitrary
text, hence is an `Int`; the seek position is its clamp to `Nat` (the source would
raise on a negative seek, a state no run of this program produces). -/
def update_index (log : List Nat) (st : IndexFiles) :
    Except Unit (IndexFiles × UpdateStatus) :=
  match load_index st.indexFile with
  | .error e => .error e
  | .ok index =>
    let w := readWatermark st.infoFile
    if (log.length : Int) ≤ w then .ok (st, .noNewLogs)
    else
      let newEntries := (linesFrom log w.toNat).foldl (updStep index) []
      if newEntries = [] then
        .ok ({ st with infoFile := some (natDigits log.length) }, .noNewDates)
      else
        .ok ({ indexFile := some (st.indexFile.getD [] ++
                 serializeEntries (sortEntries newEntries)),
               infoFile := some (natDigits log.length) }, .updated)

/-- Model of `get_date_range`: `None, None` is `none`; otherwise the entry's offset
and the offset of the first sorted key greater than the target, or the file size.
The inner `d = []` test models Python's truthiness check `if next_date:` (an empty
string is falsy); it is unreachable because no key compares greater than a string
while being empty.  `d` is drawn from the keys of `index`, so the final lookup
always succeeds and `getD`'s default is never used. -/
def get_date_range (target : List Nat) (index : List (List Nat × Int))
    (logSize : Nat) : Option (Int × Int) :=
  match lookupKey index target with
  | none => none
  | some startOff =>
    match (sortKeys (keysOf index)).find? (fun d => strLt target d) with
    | some d =>
      if d = [] then some (startOff, (logSize : Int))
      else some (startOff, (lookupKey index d).getD 0)
    | none => some (startOff, (logSize : Int))

/-- Fuelled body of the `process_chunk` read loop.  While the position is before
`cend`, read and test whole lines; once it reaches or passes `cend`, read exactly
one extra line (to pick up an entry straddling the boundary), test it, and stop. -/
def chunkLoopF : Nat → List Nat → Nat → List Nat → Nat → List (List Nat) →
    List (List Nat)
  | 0, _, _, _, _, acc => acc
  | fuel + 1, file, cend, target, pos, acc =>
    if cend ≤ pos then
      if (readline file pos).1 = [] then acc
      else if startsWithB (decodeIgnore (readline file pos).1) target then
        acc ++ [decodeIgnore (readline file pos).1]
      else acc
    else if pos < file.length then
      chunkLoopF fuel file cend target (readline file pos).2
        (if startsWithB (decodeIgnore (readline file pos).1) target then
          acc ++ [decodeIgnore (readline file pos).1]
        else acc)
    else acc

/-- Model of `process_chunk`: seek to `cstart`, discard one line whenever
`cstart != 0` (the source's partial-line discard), then run the read loop. -/
def process_chunk (file : List Nat) (cstart cend : Nat) (target : List Nat) :
    List (List Nat) :=
  chunkLoopF (file.length + 1) file cend target
    (if cstart ≠ 0 then (readline file cstart).2 else cstart) []

/-- The chunk partition built in `extract_logs`: `total = abs(end - start)` bytes
split into `w` ranges of `total / w` bytes, the last extended to `end`. -/
def mkTasksI (startOff endOff : Int) (w : Nat) : List (Nat × Nat) :=
  let cs : Nat := (endOff - startOff).natAbs / w
  (List.range w).map (fun i =>
    ((startOff + ((i * cs : Nat) : Int)).toNat,
     if i = w - 1 then endOff.toNat
     else (startOff + (((i + 1) * cs : Nat) : Int)).toNat))

/-- The caller-visible outcome of one `extract_logs` invocation. -/
inductive ExtractResult
  | notFound
  | noLogs
  | noData
  | done (out : List (List Nat))
  deriving DecidableEq

/-- The index-freshening phase of `extract_logs`: build when the entry-list
artifact is absent, update otherwise. -/
def ensureIndex (log : List Nat) (st : IndexFiles) : Except Unit IndexFiles :=
  match st.indexFile with
  | none => .ok (build_index log st)
  | some _ =>
    match update_index log st with
    | .error e => .error e
    | .ok r => .ok r.1

/-- Model of `extract_logs` with its hard-coded four workers: ensure the index,
load it, resolve the range, partition, scan every chunk, and concatenate the
chunk outputs in chunk order.  `.done out` carries the lines written to the
output artifact; the other results return before any output is produced. -/
def extract_logs (log target : List Nat) (st : IndexFiles) :
    Except Unit (IndexFiles × ExtractResult) :=
  match ensureIndex log st with
  | .error e => .error e
  | .ok st1 =>
    match load_index st1.indexFile with
    | .error e => .error e
    | .ok index =>
      if (lookupKey index target).isSome then
        match get_date_range target index log.length with
        | none => .ok (st1, .noLogs)
        | some (s, e) =>
          if (e - s).natAbs = 0 then .ok (st1, .noData)
          else
            .ok (st1, .done (((mkTasksI s e 4).map
              (fun t => process_chunk log t.1 t.2 target)).flatten))
      else .ok (st1, .notFound)

/-- The date keys of a file's lines in file order (spec-side notion for the
monotonicity hypothesis and for relating an index to its file). -/
def fileKeys (f : List Nat) : List (List Nat) :=
  (linesFrom f 0).filterMap (fun pl => lineKey pl.2)

/-- The offsets of the lines of `f` whose first 10 bytes are exactly `d`
(spec-side notion for the build-index guarantee). -/
def matchOffsets (f : List Nat) (d : List Nat) : List Int :=
  ((linesFrom f 0).filter
    (fun pl => decide (10 ≤ pl.2.length) && (pl.2.take 10 == d))).map
    (fun pl => (pl.1 : Int))

/-- The offset of the first line of `lines` whose key is `d`, if any. -/
def firstOcc (lines : List (Nat × List Nat)) (d : List Nat) : Option Int :=
  (lines.find? (fun pl => lineKey pl.2 == some d)).map (fun pl => (pl.1 : Int))

/-- Concrete log data: three 14-byte lines, two for the first date. -/
def exL0 : List Nat := strBytes ("2024-01-01 aa\n")

/-- Second line of the concrete log, same date as the first. -/
def exL1 : List Nat := strBytes ("2024-01-01 bb\n")

/-- Third line of the concrete log, a later date. -/
def exL2 : List Nat := strBytes ("2024-01-02 cc\n")

/-- The concrete 42-byte log file. -/
def exF : List Nat := exL0 ++ exL1 ++ exL2

/-- The first target date of the concrete log. -/
def exDate1 : List Nat := strBytes ("2024-01-01")

/-- The second target date of the concrete log. -/
def exDate2 : List Nat := strBytes ("2024-01-02")

/-- One-step unfolding of `loadLines` on a cons cell. -/
theorem loadLines_cons (l : List Nat) (ls : List (List Nat))
    (acc : List (List Nat × Int)) :
    loadLines (l :: ls) acc =
      match pySplit (pyStrip l) with
      | [d, o] =>
        match parseInt o with
        | some n => loadLines ls (insertAssoc acc d n)
        | none => .error ()
      | _ => loadLines ls acc := rfl

/-- Reducing one `loadLines` step on a line that does not split into two fields. -/
theorem loadLines_cons_skip (l : List Nat) (ls : List (List Nat))
    (acc : List (List Nat × Int)) (h : (pySplit (pyStrip l)).length ≠ 2) :
    loadLines (l :: ls) acc = loadLines ls acc := by
  rw [loadLines_cons]
  rcases hp : pySplit (pyStrip l) with _ | ⟨d, _ | ⟨o, _ | ⟨x, t⟩⟩⟩
  · rfl
  · rfl
  · rw [hp] at h; exact absurd rfl h
  · rfl

/-- Reducing one `loadLines` step on a well-formed two-field line. -/
theorem loadLines_cons_entry (l : List Nat) (ls : List (List Nat))
    (acc : List (List Nat × Int)) (d o : List Nat) (n : Int)
    (hp : pySplit (pyStrip l) = [d, o]) (hn : parseInt o = some n) :
    loadLines (l :: ls) acc = loadLines ls (insertAssoc acc d n) := by
  rw [loadLines_cons, hp]
  show (match parseInt o with
    | some n => loadLines ls (insertAssoc acc d n)
    | none => Except.error ()) = loadLines ls (insertAssoc acc d n)
  rw [hn]

/-- Reducing one `loadLines` step on a two-field line whose offset field fails
to parse: the whole load raises. -/
theorem loadLines_cons_err (l : List Nat) (ls : List (List Nat))
    (acc : List (List Nat × Int)) (d o : List Nat)
    (hp : pySplit (pyStrip l) = [d, o]) (hn : parseInt o = none) :
    loadLines (l :: ls) acc = .error () := by
  rw [loadLines_cons, hp]
  show (match parseInt o with
    | some n => loadLines ls (insertAssoc acc d n)
    | none => Except.error ()) = Except.error ()
  rw [hn]

/-- C8: index loading is defensive: a missing entry-list artifact loads as the
empty index; an entry line that does not split into exactly two
whitespace-separated fields is skipped without affecting the rest of the load;
a missing watermark artifact reads as 0, and so does one whose stripped content
`int(...)` cannot parse. -/
theorem claim_C8 :
    (load_index none = .ok []) ∧
    (∀ (pre : List (List Nat)) (bad : List Nat) (post : List (List Nat))
        (acc : List (List Nat × Int)), (pySplit (pyStrip bad)).length ≠ 2 →
        loadLines (pre ++ bad :: post) acc = loadLines (pre ++ post) acc) ∧
    (readWatermark none = 0) ∧
    (∀ c : List Nat, parseInt (pyStrip c) = none → readWatermark (some c) = 0) := by
  refine ⟨rfl, ?_, rfl, ?_⟩
  · intro pre bad post acc h
    induction pre generalizing acc with
    | nil => simpa using loadLines_cons_skip bad post acc h
    | cons l pre ih =>
      simp only [List.cons_append]
      rcases hp : pySplit (pyStrip l) with _ | ⟨d, _ | ⟨o, _ | ⟨x, t⟩⟩⟩
      · rw [loadLines_cons_skip _ _ _ (by rw [hp]; simp),
            loadLines_cons_skip _ _ _ (by rw [hp]; simp)]
        exact ih _
      · rw [loadLines_cons_skip _ _ _ (by rw [hp]; simp),
            loadLines_cons_skip _ _ _ (by rw [hp]; simp)]
        exact ih _
      · rcases hn : parseInt o with _ | n
        · rw [loadLines_cons_err _ _ _ _ _ hp hn, loadLines_cons_err _ _ _ _ _ hp hn]
        · rw [loadLines_cons_entry _ _ _ _ _ _ hp hn,
              loadLines_cons_entry _ _ _ _ _ _ hp hn]
          exact ih _
      · rw [loadLines_cons_skip _ _ _
              (by rw [hp]; simp only [List.length_cons, List.length_nil]; omega),
            loadLines_cons_skip _ _ _
              (by rw [hp]; simp only [List.length_cons, List.length_nil]; omega)]
        exact ih _
  · intro c h
    simp [readWatermark, h]

/-- C8 witness: a one-field line between two good lines is skipped, and a
non-numeric watermark artifact reads as 0. -/
theorem claim_C8_witness :
    loadLines ([strBytes ("2024-01-01 7")] ++ strBytes ("oops") ::
        [strBytes ("2024-01-02 20")]) [] =
      loadLines ([strBytes ("2024-01-01 7")] ++ [strBytes ("2024-01-02 20")]) [] ∧
    readWatermark (some (strBytes ("junk"))) = 0 :=
  ⟨claim_C8.2.1 [strBytes ("2024-01-01 7")] (strBytes ("oops"))
      [strBytes ("2024-01-02 20")] [] (by decide),
    claim_C8.2.2.2 (strBytes ("junk")) (by decide)⟩

/-- C10: `load_index` is not total: a two-field entry line whose second field is
not a decimal integer makes the whole load raise (the `int(...)` conversion
fails, and nothing catches it). -/
theorem claim_C10 : load_index (some (strBytes ("2024-01-01 x"))) = .error () := by
  rfl

/-- C5: `build_index` ignores the prior artifact state (it rewrites both
artifacts whole), so building twice on the same unmodified file yields the
identical entry-list artifact and watermark artifact. -/
theorem claim_C5 (log : List Nat) (st : IndexFiles) :
    build_index log (build_index log st) = build_index log st := rfl

/-- C6: when the current file size is at most the stored watermark,
`update_index` returns before touching anything: both artifacts are unchanged
and it reports that there are no new logs (not an error). -/
theorem claim_C6 (log : List Nat) (st : IndexFiles) (idx : List (List Nat × Int))
    (h1 : load_index st.indexFile = .ok idx)
    (h2 : (log.length : Int) ≤ readWatermark st.infoFile) :
    update_index log st = .ok (st, .noNewLogs) := by
  simp [update_index, h1, h2]

/-- C6 witness: a 14-byte log against a watermark of 20 is a no-op update. -/
theorem claim_C6_witness :
    update_index exL0 (IndexFiles.mk (some []) (some (natDigits 20))) =
      .ok (IndexFiles.mk (some []) (some (natDigits 20)), .noNewLogs) :=
  claim_C6 exL0 (IndexFiles.mk (some []) (some (natDigits 20))) [] (by rfl) (by decide)

/-- C9: when the target date is absent from the loaded index, `extract_logs`
returns the not-found result for the state produced by the index-freshening
phase: no chunk work is dispatched, no output is produced, and the condition is
an ordinary return, not an exception. -/
theorem claim_C9 (log target : List Nat) (st st1 : IndexFiles)
    (idx : List (List Nat × Int))
    (h1 : ensureIndex log st = .ok st1)
    (h2 : load_index st1.indexFile = .ok idx)
    (h3 : lookupKey idx target = none) :
    extract_logs log target st = .ok (st1, .notFound) := by
  simp [extract_logs, h1, h2, h3]

/-- C9 witness: extracting a date absent from a freshly built index reports
not-found. -/
theorem claim_C9_witness :
    extract_logs exL0 exDate2 (IndexFiles.mk none none) =
      .ok (build_index exL0 (IndexFiles.mk none none), .notFound) :=
  claim_C9 exL0 exDate2 (IndexFiles.mk none none)
    (build_index exL0 (IndexFiles.mk none none)) [(exDate1, 0)]
    (by rfl) (by rfl) (by decide)

/-- C1 (failing evaluation): on the 42-byte log `exF`, the resolved range for the
first date is `[0, 28)` and its two matching lines each occur once there, yet the
concatenated four-chunk output contains the second line twice.  Chunk `[0, 7)`
reads the line at 0 and then, its position 14 having passed its end 7, takes the
line at 14 as its extra read; chunk `[7, 14)` discards the rest of the line at 0
and then also takes the line at 14 as its extra read — a duplicate. -/
theorem claim_C1_duplicate :
    get_date_range exDate1 (sortEntries (buildScan exF)) exF.length = some (0, 28) ∧
    ((linesFrom exF 0).filter
      (fun pl => decide (pl.1 < 28) && startsWithB (decodeIgnore pl.2) exDate1)) =
      [(0, exL0), (14, exL1)] ∧
    ((mkTasksI 0 28 4).map (fun t => process_chunk exF t.1 t.2 exDate1)).flatten =
      [exL0, exL1, exL1] := by
  decide

/-- C2 (failing evaluation): extracting the second date of `exF` resolves the
range `[28, 42)`, whose start 28 is the line-aligned first line of that date;
chunk 0 is `[28, 31)` with `chunk_start = 28 ≠ 0`, so `process_chunk` performs
the leading discard and throws away the matching line that begins exactly at the
resolved start offset — chunk 0 returns nothing, and so does the whole
partition. -/
theorem claim_C2_chunk0_discards_start_line :
    get_date_range exDate2 (sortEntries (buildScan exF)) exF.length = some (28, 42) ∧
    (mkTasksI 28 42 4).head? = some (28, 31) ∧
    startsWithB (decodeIgnore (readline exF 28).1) exDate2 = true ∧
    process_chunk exF 28 31 exDate2 = [] ∧
    ((mkTasksI 28 42 4).map (fun t => process_chunk exF t.1 t.2 exDate2)).flatten =
      [] := by
  decide

/-- Nothing is lexicographically below the empty string. -/
theorem strLt_nil (a : List Nat) : strLt a [] = false := by
  cases a <;> rfl

/-- The lexicographic order is irreflexive. -/
theorem strLt_irrefl (a : List Nat) : strLt a a = false := by
  induction a with
  | nil => rfl
  | cons x t ih => simp [strLt, ih]

/-- The lexicographic order is asymmetric. -/
theorem strLt_asymm {a b : List Nat} (h : strLt a b = true) : strLt b a = false := by
  induction a generalizing b with
  | nil =>
    cases b with
    | nil => exact absurd h (by simp [strLt])
    | cons y bs => exact strLt_nil _
  | cons x as ih =>
    cases b with
    | nil => rw [strLt_nil] at h; exact absurd h (by simp)
    | cons y bs =>
      simp only [strLt] at h ⊢
      by_cases h1 : x < y
      · have h2 : ¬ y < x := by omega
        simp [h1, h2]
      · by_cases h2 : y < x
        · simp [h1, h2] at h
        · simp only [h1, h2, if_false] at h ⊢
          exact ih h

/-- The lexicographic order is transitive. -/
theorem strLt_trans {a b c : List Nat} (h1 : strLt a b = true)
    (h2 : strLt b c = true) : strLt a c = true := by
  induction a generalizing b c with
  | nil =>
    cases c with
    | nil => rw [strLt_nil] at h2; exact absurd h2 (by simp)
    | cons z cs => rfl
  | cons x as ih =>
    cases b with
    | nil => rw [strLt_nil] at h1; exact absurd h1 (by simp)
    | cons y bs =>
      cases c with
      | nil => rw [strLt_nil] at h2; exact absurd h2 (by simp)
      | cons z cs =>
        simp only [strLt] at h1 h2 ⊢
        by_cases hxy : x < y <;> by_cases hyz : y < z
        · simp [show x < z by omega]
        · by_cases hzy : z < y
          · simp [hyz, hzy] at h2
          · simp [show x < z by omega]
        · by_cases hyx : y < x
          · simp [hxy, hyx] at h1
          · simp [show x < z by omega]
        · by_cases hyx : y < x
          · simp [hxy, hyx] at h1
          · by_cases hzy : z < y
            · simp [hyz, hzy] at h2
            · have hxz : ¬ x < z := by omega
              have hzx : ¬ z < x := by omega
              simp only [hxy, hyx, if_false] at h1
              simp only [hyz, hzy, if_false] at h2
              simp only [hxz, hzx, if_false]
              exact ih h1 h2

/-- Two strings by neither of which the other is exceeded are equal. -/
theorem strLt_connex {a b : List Nat} (h1 : strLt a b = false)
    (h2 : strLt b a = false) : a = b := by
  induction a generalizing b with
  | nil =>
    cases b with
    | nil => rfl
    | cons y bs => simp [strLt] at h1
  | cons x as ih =>
    cases b with
    | nil => simp [strLt] at h2
    | cons y bs =>
      by_cases hxy : x < y
      · simp [strLt, hxy] at h1
      · by_cases hyx : y < x
        · simp [strLt, hyx] at h2
        · have hx : x = y := by omega
          subst hx
          simp only [strLt, hxy, hyx, if_false] at h1 h2
          rw [ih h1 h2]

/-- The sorted key list of `get_date_range` is sorted under `dateLe`. -/
theorem sortKeys_sorted (l : List (List Nat)) : List.Pairwise dateLe (sortKeys l) := by
  haveI : IsTotal (List Nat) dateLe := ⟨fun a b => by
    by_cases h : strLt b a = true
    · exact Or.inr (strLt_asymm h)
    · exact Or.inl (by simpa using h)⟩
  haveI : IsTrans (List Nat) dateLe := ⟨fun a b c h1 h2 => by
    by_contra hca
    have hca' : strLt c a = true := by simpa using hca
    by_cases hcb : strLt c b = true
    · rw [h2] at hcb; exact absurd hcb (by simp)
    · by_cases hbc : strLt b c = true
      · have hba : strLt b a = true := strLt_trans hbc hca'
        rw [h1] at hba; exact absurd hba (by simp)
      · have hbceq : b = c := strLt_connex (by simpa using hbc) (by simpa using hcb)
        subst hbceq
        rw [h1] at hca'; exact absurd hca' (by simp)⟩
  exact List.sorted_insertionSort dateLe l

/-- On a `dateLe`-sorted list, `find?` returns a least element among those
satisfying the predicate. -/
theorem find?_min_of_sorted {l : List (List Nat)} (hs : List.Pairwise dateLe l)
    {p : List Nat → Bool} {x : List Nat} (h : l.find? p = some x) :
    ∀ y ∈ l, p y = true → dateLe x y := by
  induction l with
  | nil => simp at h
  | cons a t ih =>
    rcases List.pairwise_cons.mp hs with ⟨ha, ht⟩
    by_cases hp : p a
    · rw [List.find?_cons_of_pos _ hp] at h
      injection h with h; subst h
      intro y hy _
      rcases List.mem_cons.mp hy with rfl | hy
      · exact strLt_irrefl _
      · exact ha y hy
    · rw [List.find?_cons_of_neg _ hp] at h
      intro y hy hpy
      rcases List.mem_cons.mp hy with rfl | hy
      · exact absurd hpy (by simpa using hp)
      · exact ih ht h y hy hpy

/-- Membership among the keys makes a lookup succeed. -/
theorem lookupKey_isSome_of_mem {l : List (List Nat × Int)} {k : List Nat}
    (h : k ∈ keysOf l) : (lookupKey l k).isSome := by
  induction l with
  | nil => simp [keysOf] at h
  | cons e t ih =>
    by_cases he : e.1 = k
    · simp [lookupKey, he]
    · rcases List.mem_cons.mp h with h1 | h1
      · exact absurd h1.symm he
      · simpa [lookupKey, he] using ih h1

/-- C3: range resolution.  A target date with no entry resolves to the
not-found result; otherwise the range starts at the target's stored offset and
ends at the stored offset of the least indexed date strictly greater than the
target, or at the file size when no greater indexed date exists. -/
theorem claim_C3 (index : List (List Nat × Int)) (target : List Nat) (size : Nat) :
    (lookupKey index target = none → get_date_range target index size = none) ∧
    (∀ o : Int, lookupKey index target = some o →
      ∃ e : Int, get_date_range target index size = some (o, e) ∧
        ((∃ d, d ∈ keysOf index ∧ strLt target d = true ∧
            (∀ d', d' ∈ keysOf index → strLt target d' = true → strLt d' d = false) ∧
            lookupKey index d = some e) ∨
          ((∀ d', d' ∈ keysOf index → strLt target d' = false) ∧ e = (size : Int)))) := by
  constructor
  · intro h
    simp [get_date_range, h]
  · intro o ho
    rcases hf : (sortKeys (keysOf index)).find? (fun d => strLt target d) with _ | d
    · refine ⟨(size : Int), by simp [get_date_range, ho, hf], Or.inr ⟨?_, rfl⟩⟩
      intro d' hd'
      have hd'' : d' ∈ sortKeys (keysOf index) :=
        (List.perm_insertionSort dateLe (keysOf index)).mem_iff.mpr hd'
      simpa using List.find?_eq_none.mp hf d' hd''
    · have hpd : strLt target d = true := by simpa using List.find?_some hf
      have hdmem : d ∈ sortKeys (keysOf index) := List.mem_of_find?_eq_some hf
      have hdmem' : d ∈ keysOf index :=
        (List.perm_insertionSort dateLe (keysOf index)).mem_iff.mp hdmem
      have hdne : d ≠ [] := by
        intro hd
        rw [hd, strLt_nil] at hpd
        exact absurd hpd (by simp)
      rcases Option.isSome_iff_exists.mp (lookupKey_isSome_of_mem hdmem') with ⟨e, he⟩
      refine ⟨e, by simp [get_date_range, ho, hf, hdne, he], Or.inl ⟨d, hdmem', hpd, ?_, he⟩⟩
      intro d' hd' hp'
      have hd'' : d' ∈ sortKeys (keysOf index) :=
        (List.perm_insertionSort dateLe (keysOf index)).mem_iff.mpr hd'
      exact find?_min_of_sorted (sortKeys_sorted (keysOf index)) hf d' hd'' (by simpa using hp')

/-- C3 witness: on the two-entry index of the concrete log, a missing date
resolves to not-found, and the first date resolves to its stored offset with
the end offset taken from the next greater date. -/
theorem claim_C3_witness :
    get_date_range (strBytes ("2024-01-03")) [(exDate1, 0), (exDate2, 28)] 42 = none ∧
    (∃ e : Int,
      get_date_range exDate1 [(exDate1, 0), (exDate2, 28)] 42 = some (0, e) ∧
      ((∃ d, d ∈ keysOf [(exDate1, 0), (exDate2, 28)] ∧ strLt exDate1 d = true ∧
          (∀ d', d' ∈ keysOf [(exDate1, 0), (exDate2, 28)] →
            strLt exDate1 d' = true → strLt d' d = false) ∧
          lookupKey [(exDate1, 0), (exDate2, 28)] d = some e) ∨
        ((∀ d', d' ∈ keysOf [(exDate1, 0), (exDate2, 28)] →
            strLt exDate1 d' = false) ∧ e = (42 : Int)))) :=
  ⟨(claim_C3 [(exDate1, 0), (exDate2, 28)] (strBytes ("2024-01-03")) 42).1 (by decide),
    (claim_C3 [(exDate1, 0), (exDate2, 28)] exDate1 42).2 0 (by decide)⟩

/-- A found newline index is inside the list. -/
theorem idxOfNl_lt {l : List Nat} {i : Nat} (h : idxOfNl l = some i) : i < l.length := by
  induction l generalizing i with
  | nil => simp [idxOfNl] at h
  | cons b bs ih =>
    simp only [idxOfNl] at h
    split at h
    · injection h with h
      subst h
      simp
    · rcases Option.map_eq_some'.mp h with ⟨j, hj, hji⟩
      subst hji
      simp only [List.length_cons]
      exact Nat.succ_lt_succ (ih hj)

/-- A read strictly before end of file advances the position and stays in bounds. -/
theorem readline_pos {file : List Nat} {pos : Nat} (h : pos < file.length) :
    pos < (readline file pos).2 ∧ (readline file pos).2 ≤ file.length := by
  unfold readline
  split
  · next i hi =>
    have hlt := idxOfNl_lt hi
    rw [List.length_drop] at hlt
    dsimp only
    omega
  · next hi => exact ⟨h, le_refl _⟩

/-- Sufficient fuel makes the fuelled scanner independent of the fuel amount. -/
theorem linesFromF_congr : ∀ (f g : Nat) (file : List Nat) (pos : Nat),
    file.length - pos < f → file.length - pos < g →
    linesFromF f file pos = linesFromF g file pos := by
  intro f
  induction f with
  | zero => intro g file pos hf _; omega
  | succ f ih =>
    intro g file pos hf hg
    cases g with
    | zero => omega
    | succ g =>
      simp only [linesFromF]
      by_cases hp : pos < file.length
      · simp only [hp, if_true]
        have h2 := readline_pos hp
        rw [ih g file (readline file pos).2 (by omega) (by omega)]
      · simp [hp]

/-- One-step unfolding of the line scanner. -/
theorem linesFrom_eq (file : List Nat) (pos : Nat) :
    linesFrom file pos =
      if pos < file.length then
        (pos, (readline file pos).1) :: linesFrom file (readline file pos).2
      else [] := by
  unfold linesFrom
  by_cases hp : pos < file.length
  · have h2 := readline_pos hp
    rw [if_pos hp]
    have hf : file.length + 1 - pos = (file.length - pos) + 1 := by omega
    rw [hf]
    simp only [linesFromF, hp, if_true]
    congr 1
    have h3 : file.length - (readline file pos).2 < file.length - pos := by omega
    exact linesFromF_congr (file.length - pos) (file.length + 1 - (readline file pos).2)
      file (readline file pos).2 (by omega) (by omega)
  · rw [if_neg hp]
    cases hf : file.length + 1 - pos with
    | zero => rfl
    | succ m => simp [linesFromF, hp]

/-- Every scanned line starts at or after the scan origin. -/
theorem linesFrom_offset_ge (file : List Nat) :
    ∀ pos, ∀ pl ∈ linesFrom file pos, pos ≤ pl.1 := by
  have H : ∀ n pos, file.length - pos ≤ n → ∀ pl ∈ linesFrom file pos, pos ≤ pl.1 := by
    intro n
    induction n with
    | zero =>
      intro pos h pl hpl
      rw [linesFrom_eq, if_neg (by omega)] at hpl
      simp at hpl
    | succ n ih =>
      intro pos h pl hpl
      rw [linesFrom_eq] at hpl
      by_cases hp : pos < file.length
      · rw [if_pos hp] at hpl
        rcases List.mem_cons.mp hpl with rfl | hpl
        · exact le_refl _
        · have h2 := readline_pos hp
          have := ih (readline file pos).2 (by omega) pl hpl
          omega
      · rw [if_neg hp] at hpl
        simp at hpl
  exact fun pos => H file.length pos (by omega)

/-- Scanned lines have strictly increasing start offsets. -/
theorem linesFrom_pairwise (file : List Nat) (pos : Nat) :
    List.Pairwise (fun a b => a.1 < b.1) (linesFrom file pos) := by
  have H : ∀ n pos, file.length - pos ≤ n →
      List.Pairwise (fun (a b : Nat × List Nat) => a.1 < b.1) (linesFrom file pos) := by
    intro n
    induction n with
    | zero =>
      intro pos h
      rw [linesFrom_eq, if_neg (by omega)]
      exact List.Pairwise.nil
    | succ n ih =>
      intro pos h
      rw [linesFrom_eq]
      by_cases hp : pos < file.length
      · rw [if_pos hp]
        have h2 := readline_pos hp
        refine List.pairwise_cons.mpr ⟨?_, ih (readline file pos).2 (by omega)⟩
        intro pl hpl
        have := linesFrom_offset_ge file (readline file pos).2 pl hpl
        simp only []
        omega
      · rw [if_neg hp]
        exact List.Pairwise.nil
  exact H file.length pos (by omega)

/-- Bytes of a read line are bytes of the file. -/
theorem readline_fst_subset (file : List Nat) (pos : Nat) :
    ∀ b ∈ (readline file pos).1, b ∈ file := by
  unfold readline
  split
  · intro b hb
    exact List.drop_subset _ _ (List.take_subset _ _ hb)
  · intro b hb
    exact List.drop_subset _ _ hb

/-- Bytes of any scanned line are bytes of the file. -/
theorem linesFrom_snd_subset (file : List Nat) :
    ∀ pos, ∀ pl ∈ linesFrom file pos, ∀ b ∈ pl.2, b ∈ file := by
  have H : ∀ n pos, file.length - pos ≤ n →
      ∀ pl ∈ linesFrom file pos, ∀ b ∈ pl.2, b ∈ file := by
    intro n
    induction n with
    | zero =>
      intro pos h pl hpl
      rw [linesFrom_eq, if_neg (by omega)] at hpl
      simp at hpl
    | succ n ih =>
      intro pos h pl hpl
      rw [linesFrom_eq] at hpl
      by_cases hp : pos < file.length
      · rw [if_pos hp] at hpl
        rcases List.mem_cons.mp hpl with rfl | hpl
        · exact readline_fst_subset file pos
        · have h2 := readline_pos hp
          exact ih (readline file pos).2 (by omega) pl hpl
      · rw [if_neg hp] at hpl
        simp at hpl
  exact fun pos => H file.length pos (by omega)

/-- A hit in the left part of an appended association list wins. -/
theorem lookupKey_append_some {l1 : List (List Nat × Int)} (l2 : List (List Nat × Int))
    {k : List Nat} {v : Int} (h : lookupKey l1 k = some v) :
    lookupKey (l1 ++ l2) k = some v := by
  induction l1 with
  | nil => simp [lookupKey] at h
  | cons e t ih =>
    by_cases he : e.1 = k
    · simpa [lookupKey, he] using h
    · rw [lookupKey, if_neg he] at h
      simpa [lookupKey, he] using ih h

/-- A miss in the left part of an appended association list defers to the right. -/
theorem lookupKey_append_none {l1 : List (List Nat × Int)} (l2 : List (List Nat × Int))
    {k : List Nat} (h : lookupKey l1 k = none) :
    lookupKey (l1 ++ l2) k = lookupKey l2 k := by
  induction l1 with
  | nil => rfl
  | cons e t ih =>
    by_cases he : e.1 = k
    · simp [lookupKey, he] at h
    · rw [lookupKey, if_neg he] at h
      simpa [lookupKey, he] using ih h

/-- A lookup misses exactly when the key is absent. -/
theorem lookupKey_eq_none_iff (l : List (List Nat × Int)) (k : List Nat) :
    lookupKey l k = none ↔ k ∉ keysOf l := by
  induction l with
  | nil => simp [lookupKey, keysOf]
  | cons e t ih =>
    by_cases he : e.1 = k
    · simp [lookupKey, keysOf, he]
    · rw [lookupKey, if_neg he, ih]
      simp only [keysOf, List.map_cons, List.mem_cons, not_or]
      constructor
      · intro hm
        exact ⟨fun hke => he hke.symm, hm⟩
      · intro hm
        exact hm.2

/-- A binding already visible in the accumulator survives the build scan. -/
theorem foldl_buildStep_lookup_some {lines : List (Nat × List Nat)}
    {acc : List (List Nat × Int)} {d : List Nat} {v : Int}
    (h : lookupKey acc d = some v) :
    lookupKey (lines.foldl buildStep acc) d = some v := by
  induction lines generalizing acc with
  | nil => exact h
  | cons pl rest ih =>
    simp only [List.foldl_cons]
    apply ih
    rcases hk : lineKey pl.2 with _ | k
    · simpa [buildStep, hk] using h
    · by_cases hs : (lookupKey acc k).isSome = true
      · simpa [buildStep, hk, hs] using h
      · have hb : buildStep acc pl = acc ++ [(k, (pl.1 : Int))] := by
          simp [buildStep, hk, hs]
        rw [hb]
        exact lookupKey_append_some _ h

/-- The build scan assigns a key absent from the accumulator the offset of the
first line bearing it. -/
theorem foldl_buildStep_lookup_none {lines : List (Nat × List Nat)}
    {acc : List (List Nat × Int)} {d : List Nat}
    (h : lookupKey acc d = none) :
    lookupKey (lines.foldl buildStep acc) d = firstOcc lines d := by
  induction lines generalizing acc with
  | nil => simpa [firstOcc] using h
  | cons pl rest ih =>
    simp only [List.foldl_cons]
    rcases hk : lineKey pl.2 with _ | k
    · have hb : buildStep acc pl = acc := by simp [buildStep, hk]
      rw [hb, ih h]
      unfold firstOcc
      rw [List.find?_cons_of_neg]
      simp [hk]
    · by_cases hkd : k = d
      · subst hkd
        have hs : (lookupKey acc k).isSome = false := by simp [h]
        have hb : buildStep acc pl = acc ++ [(k, (pl.1 : Int))] := by
          simp [buildStep, hk, hs]
        rw [hb]
        have hv : lookupKey (acc ++ [(k, (pl.1 : Int))]) k = some (pl.1 : Int) := by
          rw [lookupKey_append_none _ h]
          simp [lookupKey]
        rw [foldl_buildStep_lookup_some hv]
        unfold firstOcc
        rw [List.find?_cons_of_pos]
        · rfl
        · simp [hk]
      · have hocc : firstOcc (pl :: rest) d = firstOcc rest d := by
          unfold firstOcc
          rw [List.find?_cons_of_neg]
          simp [hk, hkd]
        rw [hocc]
        by_cases hs : (lookupKey acc k).isSome = true
        · have hb : buildStep acc pl = acc := by simp [buildStep, hk, hs]
          rw [hb, ih h]
        · have hb : buildStep acc pl = acc ++ [(k, (pl.1 : Int))] := by
            simp [buildStep, hk, hs]
          rw [hb]
          refine ih ?_
          rw [lookupKey_append_none _ h]
          simp [lookupKey, hkd]

/-- The built index looks up exactly the first occurrence of a date. -/
theorem buildScan_lookup (log : List Nat) (d : List Nat) :
    lookupKey (buildScan log) d = firstOcc (linesFrom log 0) d :=
  foldl_buildStep_lookup_none rfl

/-- Keys of an appended association list. -/
theorem keysOf_append (l1 l2 : List (List Nat × Int)) :
    keysOf (l1 ++ l2) = keysOf l1 ++ keysOf l2 := by
  simp [keysOf]

/-- The build scan preserves distinctness of keys. -/
theorem foldl_buildStep_keys_nodup {lines : List (Nat × List Nat)}
    {acc : List (List Nat × Int)} (h : (keysOf acc).Nodup) :
    (keysOf (lines.foldl buildStep acc)).Nodup := by
  induction lines generalizing acc with
  | nil => exact h
  | cons pl rest ih =>
    simp only [List.foldl_cons]
    apply ih
    rcases hk : lineKey pl.2 with _ | k
    · simpa [buildStep, hk] using h
    · by_cases hs : (lookupKey acc k).isSome = true
      · simpa [buildStep, hk, hs] using h
      · have hb : buildStep acc pl = acc ++ [(k, (pl.1 : Int))] := by
          simp [buildStep, hk, hs]
        rw [hb, keysOf_append]
        have hkmem : k ∉ keysOf acc := by
          rw [← lookupKey_eq_none_iff]
          cases hx : lookupKey acc k with
          | none => rfl
          | some v => exact absurd (by simp [hx]) hs
        refine List.Nodup.append h (by simp [keysOf]) ?_
        intro a ha hmem
        have ha' : a = k := by simpa [keysOf] using hmem
        subst ha'
        exact hkmem ha

/-- A key of a member entry. -/
theorem mem_keysOf_of_mem {l : List (List Nat × Int)} {d : List Nat} {o : Int}
    (h : (d, o) ∈ l) : d ∈ keysOf l := by
  simpa [keysOf] using List.mem_map_of_mem (fun e => e.1) h

/-- With distinct keys, membership of a binding coincides with its lookup. -/
theorem mem_iff_lookupKey {l : List (List Nat × Int)} (h : (keysOf l).Nodup)
    (d : List Nat) (o : Int) : (d, o) ∈ l ↔ lookupKey l d = some o := by
  induction l with
  | nil => simp [lookupKey]
  | cons e t ih =>
    have h' : e.1 ∉ keysOf t ∧ (keysOf t).Nodup := by
      simpa [keysOf] using h
    by_cases hed : e.1 = d
    · constructor
      · intro hm
        rcases List.mem_cons.mp hm with hh | hm
        · rw [lookupKey, if_pos hed, ← hh]
        · exact absurd (hed ▸ mem_keysOf_of_mem hm) h'.1
      · intro hl
        rw [lookupKey, if_pos hed] at hl
        injection hl with hl
        have : e = (d, o) := by
          rcases e with ⟨e1, e2⟩
          simp only at hed hl
          rw [hed, hl]
        exact this ▸ List.mem_cons_self e t
    · rw [lookupKey, if_neg hed]
      constructor
      · intro hm
        rcases List.mem_cons.mp hm with hh | hm
        · exact absurd (congrArg Prod.fst hh).symm hed
        · exact (ih h'.2).mp hm
      · intro hl
        exact List.mem_cons_of_mem _ ((ih h'.2).mpr hl)

/-- Lenient decoding is the identity on ASCII bytes. -/
theorem decodeIgnore_ascii {l : List Nat} (h : ∀ b ∈ l, b < 128) :
    decodeIgnore l = l := by
  unfold decodeIgnore
  rw [List.filter_eq_self]
  intro b hb
  simpa using h b hb

/-- On an ASCII line, the date key is literally the first 10 bytes. -/
theorem lineKey_ascii {l : List Nat} (h : ∀ b ∈ l, b < 128) :
    lineKey l = if l.length < 10 then none else some (l.take 10) := by
  unfold lineKey
  rw [decodeIgnore_ascii h]

/-- `find?` only depends on the predicate's values on the list. -/
theorem find?_congr_mem {α : Type} {p q : α → Bool} :
    ∀ {l : List α}, (∀ x ∈ l, p x = q x) → l.find? p = l.find? q := by
  intro l
  induction l with
  | nil => intro _; rfl
  | cons a t ih =>
    intro h
    by_cases hp : p a
    · rw [List.find?_cons_of_pos _ hp,
        List.find?_cons_of_pos _ (by rw [← h a (List.mem_cons_self a t)]; exact hp)]
    · rw [List.find?_cons_of_neg _ hp,
        List.find?_cons_of_neg _ (by rw [← h a (List.mem_cons_self a t)]; exact hp),
        ih (fun x hx => h x (List.mem_cons_of_mem a hx))]

/-- On a list with strictly increasing first components, `find?` returns an
element of least first component among those satisfying the predicate. -/
theorem find?_fst_min {l : List (Nat × List Nat)}
    (hs : List.Pairwise (fun a b => a.1 < b.1) l)
    {p : Nat × List Nat → Bool} {x : Nat × List Nat} (h : l.find? p = some x) :
    ∀ y ∈ l, p y = true → x.1 ≤ y.1 := by
  induction l with
  | nil => simp at h
  | cons a t ih =>
    rcases List.pairwise_cons.mp hs with ⟨ha, ht⟩
    by_cases hp : p a
    · rw [List.find?_cons_of_pos _ hp] at h
      injection h with h
      subst h
      intro y hy _
      rcases List.mem_cons.mp hy with rfl | hy
      · exact le_refl _
      · exact le_of_lt (ha y hy)
    · rw [List.find?_cons_of_neg _ hp] at h
      intro y hy hpy
      rcases List.mem_cons.mp hy with rfl | hy
      · exact absurd hpy (by simpa using hp)
      · exact ih ht h y hy hpy

/-- A member satisfying the predicate makes `find?` succeed. -/
theorem find?_isSome_of_mem {α : Type} {l : List α} {p : α → Bool} {x : α}
    (hx : x ∈ l) (hp : p x = true) : ∃ y, l.find? p = some y := by
  cases hf : l.find? p with
  | none => exact absurd hp (by simpa using List.find?_eq_none.mp hf x hx)
  | some y => exact ⟨y, rfl⟩

/-- C4: after a build on an ASCII log file, a binding `(d, o)` is stored exactly
when `o` is the minimal byte offset among the lines whose first 10 bytes equal
`d` (lines shorter than 10 bytes are skipped; later lines with the same date
never move the stored offset). -/
theorem claim_C4 (file : List Nat) (hA : ∀ b ∈ file, b < 128)
    (d : List Nat) (o : Int) :
    (d, o) ∈ sortEntries (buildScan file) ↔
      (o ∈ matchOffsets file d ∧ ∀ o' ∈ matchOffsets file d, o ≤ o') := by
  have hnodup : (keysOf (buildScan file)).Nodup :=
    foldl_buildStep_keys_nodup (by simp [keysOf])
  have hperm : List.Perm (sortEntries (buildScan file)) (buildScan file) :=
    List.perm_insertionSort entryLe (buildScan file)
  -- the two predicates agree on the scanned lines
  have hpred : ∀ q ∈ linesFrom file 0,
      (lineKey q.2 == some d) =
        (decide (10 ≤ q.2.length) && (q.2.take 10 == d)) := by
    intro q hq
    have hsub : ∀ b ∈ q.2, b < 128 :=
      fun b hb => hA b (linesFrom_snd_subset file 0 q hq b hb)
    rw [lineKey_ascii hsub]
    by_cases hlen : q.2.length < 10
    · have h10 : ¬ 10 ≤ q.2.length := by omega
      simp [hlen, h10]
    · have h10 : 10 ≤ q.2.length := by omega
      by_cases hd : q.2.take 10 = d
      · simp [hlen, h10, hd]
      · simp [hlen, h10, hd]
  refine Iff.trans (hperm.mem_iff) ?_
  rw [mem_iff_lookupKey hnodup, buildScan_lookup]
  unfold firstOcc matchOffsets
  constructor
  · intro h
    rcases hf : (linesFrom file 0).find? (fun q => lineKey q.2 == some d)
        with _ | q
    · rw [hf] at h; simp at h
    · rw [hf] at h
      simp only [Option.map_some'] at h
      injection h with h
      have hmem : q ∈ linesFrom file 0 := List.mem_of_find?_eq_some hf
      have hq0b := List.find?_some hf
      have hq : (lineKey q.2 == some d) = true := hq0b
      have hq' : (decide (10 ≤ q.2.length) && (q.2.take 10 == d)) = true := by
        rw [← hpred q hmem]; exact hq
      constructor
      · rw [← h]
        exact List.mem_map_of_mem _ (List.mem_filter.mpr ⟨hmem, hq'⟩)
      · intro o' ho'
        rcases List.mem_map.mp ho' with ⟨q', hq1, rfl⟩
        rcases List.mem_filter.mp hq1 with ⟨hmem', hp'⟩
        have hle : q.1 ≤ q'.1 :=
          find?_fst_min (linesFrom_pairwise file 0) hf q' hmem'
            (by rw [hpred q' hmem']; exact hp')
        rw [← h]
        exact_mod_cast hle
  · rintro ⟨ho, hmin⟩
    rcases List.mem_map.mp ho with ⟨q0, hq0, hop⟩
    rcases List.mem_filter.mp hq0 with ⟨hmem0, hp0⟩
    have hp0' : (lineKey q0.2 == some d) = true := by
      rw [hpred q0 hmem0]; exact hp0
    rcases @find?_isSome_of_mem _ (linesFrom file 0)
        (fun r => lineKey r.2 == some d) q0 hmem0 hp0' with ⟨q, hf⟩
    have hmem : q ∈ linesFrom file 0 := List.mem_of_find?_eq_some hf
    have hq0b := List.find?_some hf
    have hq : (lineKey q.2 == some d) = true := hq0b
    have hq' : (decide (10 ≤ q.2.length) && (q.2.take 10 == d)) = true := by
      rw [← hpred q hmem]; exact hq
    have hqm : ((q.1 : Int)) ∈ ((linesFrom file 0).filter
        (fun q => decide (10 ≤ q.2.length) && (q.2.take 10 == d))).map
        (fun q => (q.1 : Int)) :=
      List.mem_map_of_mem _ (List.mem_filter.mpr ⟨hmem, hq'⟩)
    have h1 : o ≤ (q.1 : Int) := hmin _ hqm
    have h2 : q.1 ≤ q0.1 :=
      find?_fst_min (linesFrom_pairwise file 0) hf q0 hmem0
        (by rw [hpred q0 hmem0]; exact hp0)
    have h3 : o = (q.1 : Int) := by
      rw [← hop] at h1 ⊢
      have h4 : (q.1 : Int) ≤ (q0.1 : Int) := by exact_mod_cast h2
      omega
    rw [hf, h3]
    rfl

/-- C4 witness: on the concrete ASCII log, the first date is stored at offset 0,
the least of its two occurrences 0 and 14. -/
theorem claim_C4_witness :
    (exDate1, (0 : Int)) ∈ sortEntries (buildScan exF) ∧
    ((0 : Int) ∈ matchOffsets exF exDate1 ∧
      ∀ o' ∈ matchOffsets exF exDate1, (0 : Int) ≤ o') :=
  ⟨by decide, (claim_C4 exF (by decide) exDate1 0).mp (by decide)⟩

/-- Unfolding `readline` when a newline is found. -/
theorem readline_of_idxOfNl_some {file : List Nat} {pos i : Nat}
    (h : idxOfNl (file.drop pos) = some i) :
    readline file pos = ((file.drop pos).take (i + 1), pos + i + 1) := by
  unfold readline
  rw [h]

/-- Unfolding `readline` when no newline remains. -/
theorem readline_of_idxOfNl_none {file : List Nat} {pos : Nat}
    (h : idxOfNl (file.drop pos) = none) :
    readline file pos = (file.drop pos, file.length) := by
  unfold readline
  rw [h]

/-- A newline found in the left part of an appended list is found unchanged. -/
theorem idxOfNl_append_some {a : List Nat} {i : Nat} (b : List Nat)
    (h : idxOfNl a = some i) : idxOfNl (a ++ b) = some i := by
  induction a generalizing i with
  | nil => simp [idxOfNl] at h
  | cons x t ih =>
    by_cases hx : x = 10
    · simpa [idxOfNl, hx] using h
    · simp only [List.cons_append, idxOfNl, hx, if_false, List.append_eq] at h ⊢
      rcases Option.map_eq_some'.mp h with ⟨j, hj, hji⟩
      rw [ih hj]
      simpa using hji

/-- The newline search fails exactly when there is no newline byte. -/
theorem idxOfNl_eq_none_iff (l : List Nat) : idxOfNl l = none ↔ 10 ∉ l := by
  induction l with
  | nil => simp [idxOfNl]
  | cons x t ih =>
    by_cases hx : x = 10
    · simp [idxOfNl, hx]
    · simp only [idxOfNl, hx, if_false, List.mem_cons]
      rw [Option.map_eq_none', ih]
      constructor
      · intro h hmem
        rcases hmem with h1 | h2
        · exact hx h1.symm
        · exact h h2
      · intro h h2
        exact h (Or.inr h2)

/-- No newline in the left part defers the search to the right part. -/
theorem idxOfNl_append_none {a : List Nat} (b : List Nat)
    (h : idxOfNl a = none) : idxOfNl (a ++ b) = (idxOfNl b).map (· + a.length) := by
  induction a with
  | nil => simp
  | cons x t ih =>
    by_cases hx : x = 10
    · simp [idxOfNl, hx] at h
    · simp only [idxOfNl, hx, if_false] at h
      have ht : idxOfNl t = none := Option.map_eq_none'.mp h
      simp only [List.cons_append, idxOfNl, hx, if_false, List.append_eq]
      rw [ih ht]
      cases idxOfNl b with
      | none => rfl
      | some j =>
        simp only [Option.map_some', List.length_cons]
        congr 1

/-- A newline-terminated left block confines reads started inside it. -/
theorem readline_append_left {f0 : List Nat} (s : List Nat) {g : List Nat}
    (hterm : f0 = g ++ [10]) {p : Nat} (hp : p < f0.length) :
    readline (f0 ++ s) p = readline f0 p := by
  have hple : p ≤ f0.length := le_of_lt hp
  have hnl : 10 ∈ f0.drop p := by
    subst hterm
    have hpg : p ≤ g.length := by
      rw [List.length_append, List.length_cons, List.length_nil] at hp
      omega
    rw [List.drop_append_of_le_length hpg]
    exact List.mem_append_right _ (List.mem_singleton.mpr rfl)
  have hsome : ∃ i, idxOfNl (f0.drop p) = some i := by
    cases hf : idxOfNl (f0.drop p) with
    | none => exact absurd hnl ((idxOfNl_eq_none_iff _).mp hf)
    | some i => exact ⟨i, rfl⟩
  rcases hsome with ⟨i, hi⟩
  have hilt : i < (f0.drop p).length := idxOfNl_lt hi
  rw [readline_of_idxOfNl_some
      (by rw [List.drop_append_of_le_length hple]; exact idxOfNl_append_some s hi),
    readline_of_idxOfNl_some hi, List.drop_append_of_le_length hple,
    List.take_append_of_le_length (by omega)]

/-- Reading at an offset past the left block reads inside the right block. -/
theorem readline_append_right (f0 s : List Nat) (q : Nat) :
    readline (f0 ++ s) (f0.length + q) =
      ((readline s q).1, f0.length + (readline s q).2) := by
  cases hi : idxOfNl (s.drop q) with
  | none =>
    rw [readline_of_idxOfNl_none (by rw [List.drop_append q]; exact hi),
      readline_of_idxOfNl_none hi, List.drop_append q]
    simp [List.length_append]
  | some i =>
    rw [readline_of_idxOfNl_some (by rw [List.drop_append q]; exact hi),
      readline_of_idxOfNl_some hi, List.drop_append q]
    simp only [Prod.mk.injEq]
    exact ⟨trivial, by omega⟩

/-- Scanning past the left block scans the right block, offsets shifted. -/
theorem linesFrom_append_right (f0 s : List Nat) :
    ∀ q, linesFrom (f0 ++ s) (f0.length + q) =
      (linesFrom s q).map (fun pl => (f0.length + pl.1, pl.2)) := by
  have H : ∀ n q, s.length - q ≤ n →
      linesFrom (f0 ++ s) (f0.length + q) =
        (linesFrom s q).map (fun pl => (f0.length + pl.1, pl.2)) := by
    intro n
    induction n with
    | zero =>
      intro q h
      rw [linesFrom_eq (f0 ++ s) (f0.length + q),
        if_neg (show ¬ f0.length + q < (f0 ++ s).length by
          rw [List.length_append]; omega),
        linesFrom_eq s q, if_neg (show ¬ q < s.length by omega)]
      rfl
    | succ n ih =>
      intro q h
      rw [linesFrom_eq (f0 ++ s) (f0.length + q), linesFrom_eq s q]
      by_cases hq : q < s.length
      · rw [if_pos (show f0.length + q < (f0 ++ s).length by
            rw [List.length_append]; omega), if_pos hq,
          readline_append_right]
        dsimp only
        simp only [List.map_cons]
        congr 1
        have h2 := readline_pos hq
        exact ih (readline s q).2 (by omega)
      · rw [if_neg (show ¬ f0.length + q < (f0 ++ s).length by
            rw [List.length_append]; omega), if_neg hq]
        rfl
  exact fun q => H s.length q (by omega)

/-- Scanning an appended file from inside a newline-terminated left block first
yields the left block's lines, then the right block's lines shifted. -/
theorem linesFrom_append_left {f0 : List Nat} (s : List Nat) {g : List Nat}
    (hterm : f0 = g ++ [10]) :
    ∀ p, p ≤ f0.length →
      linesFrom (f0 ++ s) p =
        linesFrom f0 p ++ (linesFrom s 0).map (fun pl => (f0.length + pl.1, pl.2)) := by
  have H : ∀ n p, f0.length - p ≤ n → p ≤ f0.length →
      linesFrom (f0 ++ s) p =
        linesFrom f0 p ++ (linesFrom s 0).map (fun pl => (f0.length + pl.1, pl.2)) := by
    intro n
    induction n with
    | zero =>
      intro p h hple
      have hp : p = f0.length := by omega
      subst hp
      have hR := linesFrom_append_right f0 s 0
      rw [Nat.add_zero] at hR
      rw [hR, linesFrom_eq f0 f0.length, if_neg (by omega), List.nil_append]
    | succ n ih =>
      intro p h hple
      by_cases hp : p < f0.length
      · rw [linesFrom_eq (f0 ++ s) p, if_pos (by rw [List.length_append]; omega),
          readline_append_left s hterm hp, linesFrom_eq f0 p, if_pos hp,
          List.cons_append]
        congr 1
        have h2 := readline_pos hp
        exact ih (readline f0 p).2 (by omega) (by omega)
      · have hpe : p = f0.length := by omega
        subst hpe
        have hR := linesFrom_append_right f0 s 0
        rw [Nat.add_zero] at hR
        rw [hR, linesFrom_eq f0 f0.length, if_neg (by omega), List.nil_append]
  exact fun p => H f0.length p (by omega)

/-- Full-file scan of a record-terminated file plus a suffix: the original lines
followed by the suffix's lines at shifted offsets. -/
theorem linesFrom_decomp (f0 s : List Nat)
    (hterm : f0 = [] ∨ ∃ g, f0 = g ++ [10]) :
    linesFrom (f0 ++ s) 0 =
      linesFrom f0 0 ++ (linesFrom s 0).map (fun pl => (f0.length + pl.1, pl.2)) := by
  rcases hterm with rfl | ⟨g, hg⟩
  · rw [List.nil_append]
    have h0 : linesFrom ([] : List Nat) 0 = [] := by
      rw [linesFrom_eq]
      simp
    rw [h0, List.nil_append]
    have hid : (fun pl : Nat × List Nat => (([] : List Nat).length + pl.1, pl.2)) = id := by
      funext pl
      simp
    rw [hid, List.map_id]
  · exact linesFrom_append_left s hg 0 (by omega)

/-- Lookup success over an appended association list. -/
theorem lookupKey_append_isSome (l1 l2 : List (List Nat × Int)) (k : List Nat) :
    (lookupKey (l1 ++ l2) k).isSome =
      ((lookupKey l1 k).isSome || (lookupKey l2 k).isSome) := by
  cases h1 : lookupKey l1 k with
  | none => rw [lookupKey_append_none _ h1]; simp
  | some v => rw [lookupKey_append_some _ h1]; simp

/-- The build scan seeded with a fixed prior index is the prior index followed
by the update scan against it: this is the bridge between `build_index` on the
whole file and `update_index` on the appended part. -/
theorem foldl_buildStep_eq_updStep :
    ∀ (lines : List (Nat × List Nat)) (idx acc : List (List Nat × Int)),
      lines.foldl buildStep (idx ++ acc) = idx ++ lines.foldl (updStep idx) acc := by
  intro lines
  induction lines with
  | nil => intro idx acc; rfl
  | cons pl rest ih =>
    intro idx acc
    simp only [List.foldl_cons]
    rcases hk : lineKey pl.2 with _ | k
    · rw [show buildStep (idx ++ acc) pl = idx ++ acc by simp [buildStep, hk],
        show updStep idx acc pl = acc by simp [updStep, hk]]
      exact ih idx acc
    · by_cases hs : ((lookupKey idx k).isSome || (lookupKey acc k).isSome) = true
      · rw [show buildStep (idx ++ acc) pl = idx ++ acc by
          simp [buildStep, hk, lookupKey_append_isSome, hs],
          show updStep idx acc pl = acc by simp [updStep, hk, hs]]
        exact ih idx acc
      · rw [show buildStep (idx ++ acc) pl = idx ++ (acc ++ [(k, (pl.1 : Int))]) by
          simp [buildStep, hk, lookupKey_append_isSome, hs, List.append_assoc],
          show updStep idx acc pl = acc ++ [(k, (pl.1 : Int))] by
            simp [updStep, hk, hs]]
        exact ih idx (acc ++ [(k, (pl.1 : Int))])

/-- The update scan step on a keyless line. -/
theorem updStep_none (idx acc : List (List Nat × Int)) (pl : Nat × List Nat)
    (hk : lineKey pl.2 = none) : updStep idx acc pl = acc := by
  simp [updStep, hk]

/-- The update scan step on a dated line. -/
theorem updStep_some (idx acc : List (List Nat × Int)) (pl : Nat × List Nat)
    (k : List Nat) (hk : lineKey pl.2 = some k) :
    updStep idx acc pl =
      if ((lookupKey idx k).isSome || (lookupKey acc k).isSome) = true then acc
      else acc ++ [(k, (pl.1 : Int))] := by
  simp [updStep, hk]

/-- The update scan only consults which keys the prior index has. -/
theorem foldl_updStep_congr {idx idx' : List (List Nat × Int)}
    (h : ∀ k, (lookupKey idx k).isSome = (lookupKey idx' k).isSome) :
    ∀ (lines : List (Nat × List Nat)) (acc : List (List Nat × Int)),
      lines.foldl (updStep idx) acc = lines.foldl (updStep idx') acc := by
  intro lines
  induction lines with
  | nil => intro acc; rfl
  | cons pl rest ih =>
    intro acc
    simp only [List.foldl_cons]
    have hstep : updStep idx acc pl = updStep idx' acc pl := by
      rcases hk : lineKey pl.2 with _ | k
      · rw [updStep_none _ _ _ hk, updStep_none _ _ _ hk]
      · rw [updStep_some _ _ _ _ hk, updStep_some _ _ _ _ hk, h k]
    rw [hstep]
    exact ih (updStep idx' acc pl)

/-- A successful lookup witnesses key membership. -/
theorem mem_of_lookupKey_isSome {l : List (List Nat × Int)} {k : List Nat}
    (h : (lookupKey l k).isSome = true) : k ∈ keysOf l := by
  by_contra hc
  rw [← lookupKey_eq_none_iff] at hc
  rw [hc] at h
  simp at h

/-- Key membership after the build scan: the accumulator's keys plus every date
key of the scanned lines. -/
theorem foldl_buildStep_key_mem :
    ∀ (lines : List (Nat × List Nat)) (acc : List (List Nat × Int)) (k : List Nat),
      k ∈ keysOf (lines.foldl buildStep acc) ↔
        k ∈ keysOf acc ∨ k ∈ lines.filterMap (fun pl => lineKey pl.2) := by
  intro lines
  induction lines with
  | nil => intro acc k; simp
  | cons pl rest ih =>
    intro acc k
    simp only [List.foldl_cons]
    rcases hk : lineKey pl.2 with _ | k'
    · rw [show buildStep acc pl = acc by simp [buildStep, hk]]
      rw [ih acc k,
        @List.filterMap_cons_none (Nat × List Nat) (List Nat)
          (fun q => lineKey q.2) pl rest hk]
    · rw [@List.filterMap_cons_some (Nat × List Nat) (List Nat)
        (fun q => lineKey q.2) pl rest k' hk]
      by_cases hs : (lookupKey acc k').isSome = true
      · rw [show buildStep acc pl = acc by simp [buildStep, hk, hs], ih acc k]
        constructor
        · rintro (h1 | h1)
          · exact Or.inl h1
          · exact Or.inr (List.mem_cons_of_mem _ h1)
        · rintro (h1 | h1)
          · exact Or.inl h1
          · rcases List.mem_cons.mp h1 with rfl | h2
            · exact Or.inl (mem_of_lookupKey_isSome hs)
            · exact Or.inr h2
      · rw [show buildStep acc pl = acc ++ [(k', (pl.1 : Int))] by
            simp [buildStep, hk, hs], ih _ k, keysOf_append]
        constructor
        · rintro (h1 | h1)
          · rcases List.mem_append.mp h1 with h2 | h2
            · exact Or.inl h2
            · have : k = k' := by simpa [keysOf] using h2
              exact Or.inr (this ▸ List.mem_cons_self _ _)
          · exact Or.inr (List.mem_cons_of_mem _ h1)
        · rintro (h1 | h1)
          · exact Or.inl (List.mem_append_left _ h1)
          · rcases List.mem_cons.mp h1 with rfl | h2
            · exact Or.inl (List.mem_append_right _ (by simp [keysOf]))
            · exact Or.inr h2

/-- The fuelled decimal printer agrees with `Nat.digits` for positive numbers. -/
theorem natDigitsF_eq_digits :
    ∀ (f n : Nat) (acc : List Nat), n < f → 0 < n →
      natDigitsF f n acc = ((Nat.digits 10 n).reverse.map (· + 48)) ++ acc := by
  intro f
  induction f with
  | zero => intro n acc h; omega
  | succ f ih =>
    intro n acc h hn
    rw [Nat.digits_def' (by norm_num) hn]
    by_cases h10 : n < 10
    · have hm : n % 10 = n := Nat.mod_eq_of_lt h10
      have hd : n / 10 = 0 := Nat.div_eq_of_lt h10
      simp only [natDigitsF, h10, if_true, hm, hd, Nat.digits_zero,
        List.reverse_cons, List.reverse_nil, List.nil_append, List.map_cons,
        List.map_nil, List.cons_append, List.nil_append]
    · have hd : 0 < n / 10 := by
        have : 10 ≤ n := by omega
        exact Nat.div_pos this (by norm_num)
      have hdlt : n / 10 < f := by
        have h1 : n / 10 < n := Nat.div_lt_self hn (by norm_num)
        omega
      simp only [natDigitsF, h10, if_false]
      rw [ih (n / 10) ((n % 10 + 48) :: acc) hdlt hd]
      rw [List.reverse_cons, List.map_append, List.append_assoc]
      rfl

/-- Every byte of a printed number is an ASCII digit. -/
theorem natDigits_digit_bounds (n : Nat) :
    ∀ b ∈ natDigits n, 48 ≤ b ∧ b ≤ 57 := by
  intro b hb
  by_cases hn : 0 < n
  · rw [natDigits, natDigitsF_eq_digits (n + 1) n [] (by omega) hn,
      List.append_nil] at hb
    rcases List.mem_map.mp hb with ⟨d, hd, rfl⟩
    have : d < 10 := Nat.digits_lt_base (by norm_num) (List.mem_reverse.mp hd)
    omega
  · have hn0 : n = 0 := by omega
    subst hn0
    rcases List.mem_singleton.mp hb with rfl
    omega

/-- A printed number is never the empty string. -/
theorem natDigits_ne_nil (n : Nat) : natDigits n ≠ [] := by
  by_cases hn : 0 < n
  · rw [natDigits, natDigitsF_eq_digits (n + 1) n [] (by omega) hn, List.append_nil]
    simp only [ne_eq, List.map_eq_nil_iff, List.reverse_eq_nil_iff]
    exact Nat.digits_ne_nil_iff_ne_zero.mpr (by omega)
  · have hn0 : n = 0 := by omega
    subst hn0
    simp [natDigits, natDigitsF]

/-- Digit bytes are not whitespace. -/
theorem natDigits_not_ws (n : Nat) : ∀ b ∈ natDigits n, isWs b = false := by
  intro b hb
  have := natDigits_digit_bounds n b hb
  simp only [isWs, Bool.or_eq_false_iff]
  refine ⟨⟨⟨⟨⟨?_, ?_⟩, ?_⟩, ?_⟩, ?_⟩, ?_⟩ <;> simp <;> omega

/-- Base-10 read-back of a digit-mapped list. -/
theorem foldl_base10 :
    ∀ (m : List Nat) (c : Nat),
      m.foldl (fun a d => a * 10 + d) c = c * 10 ^ m.length + Nat.ofDigits 10 m.reverse := by
  intro m
  induction m with
  | nil => intro c; simp
  | cons d t ih =>
    intro c
    rw [List.foldl_cons, ih (c * 10 + d), List.reverse_cons, Nat.ofDigits_append]
    simp only [List.length_cons, List.length_reverse]
    rw [show Nat.ofDigits 10 [d] = d by simp [Nat.ofDigits_singleton]]
    ring

/-- The printed digits of `n` read back as `n`. -/
theorem digitsVal_natDigits (n : Nat) : digitsVal (natDigits n) = n := by
  by_cases hn : 0 < n
  · rw [natDigits, natDigitsF_eq_digits (n + 1) n [] (by omega) hn, List.append_nil]
    unfold digitsVal
    rw [List.foldl_map]
    have hcongr : ∀ (m : List Nat) (c : Nat),
        m.foldl (fun a d => a * 10 + (d + 48 - 48)) c = m.foldl (fun a d => a * 10 + d) c := by
      intro m
      induction m with
      | nil => intro c; rfl
      | cons x t iht => intro c; rw [List.foldl_cons, List.foldl_cons,
          Nat.add_sub_cancel, iht]
    rw [hcongr, foldl_base10, List.reverse_reverse, Nat.ofDigits_digits]
    ring
  · have hn0 : n = 0 := by omega
    subst hn0
    rfl

/-- `parseInt` on a string not starting with a sign is the unsigned parse. -/
theorem parseInt_not_sign (b : Nat) (t : List Nat) (h43 : b ≠ 43) (h45 : b ≠ 45) :
    parseInt (b :: t) = (parseUnsigned (b :: t)).map (fun n => (n : Int)) := by
  unfold parseInt
  split
  · next heq =>
    rw [List.cons.injEq] at heq
    exact absurd heq.1 h43
  · next heq =>
    rw [List.cons.injEq] at heq
    exact absurd heq.1 h45
  · rfl

/-- Python `int` reads back a printed natural number. -/
theorem parseInt_natDigits (n : Nat) : parseInt (natDigits n) = some (n : Int) := by
  rcases hcons : natDigits n with _ | ⟨b, t⟩
  · exact absurd hcons (natDigits_ne_nil n)
  · have hb : 48 ≤ b ∧ b ≤ 57 :=
      natDigits_digit_bounds n b (by rw [hcons]; exact List.mem_cons_self _ _)
    rw [parseInt_not_sign b t (by omega) (by omega), ← hcons]
    have hdig : (natDigits n ≠ [] && (natDigits n).all isDigitB) = true := by
      rw [Bool.and_eq_true]
      constructor
      · simp [natDigits_ne_nil n]
      · rw [List.all_eq_true]
        intro x hx
        have := natDigits_digit_bounds n x hx
        simp only [isDigitB, Bool.and_eq_true, decide_eq_true_eq]
        omega
    unfold parseUnsigned
    rw [if_pos hdig, digitsVal_natDigits]
    rfl

/-- Dropping whitespace from a list whose bytes are all non-whitespace. -/
theorem dropWhile_isWs_of_not_ws {l : List Nat} (h : ∀ b ∈ l, isWs b = false) :
    l.dropWhile isWs = l := by
  cases l with
  | nil => rfl
  | cons x t =>
    rw [List.dropWhile_cons, if_neg]
    rw [h x (List.mem_cons_self x t)]
    simp

/-- Stripping a string with no whitespace at all leaves it unchanged. -/
theorem pyStrip_of_not_ws {l : List Nat} (h : ∀ b ∈ l, isWs b = false) :
    pyStrip l = l := by
  unfold pyStrip
  rw [dropWhile_isWs_of_not_ws h,
    dropWhile_isWs_of_not_ws (fun b hb => h b (List.mem_reverse.mp hb)),
    List.reverse_reverse]

/-- Stripping an entry line removes exactly its trailing newline. -/
theorem pyStrip_entry (a dg : List Nat) (ha : a ≠ [])
    (hA : ∀ x ∈ a, isWs x = false) (hd : dg ≠ [])
    (hD : ∀ x ∈ dg, isWs x = false) :
    pyStrip (a ++ 32 :: (dg ++ [10])) = a ++ 32 :: dg := by
  unfold pyStrip
  have h1 : (a ++ 32 :: (dg ++ [10])).dropWhile isWs = a ++ 32 :: (dg ++ [10]) := by
    obtain ⟨x, t, rfl⟩ := List.exists_cons_of_ne_nil ha
    rw [List.cons_append, List.dropWhile_cons,
      if_neg (by rw [hA x (List.mem_cons_self x t)]; simp)]
  rw [h1]
  have h2 : (a ++ 32 :: (dg ++ [10])).reverse =
      10 :: (dg.reverse ++ 32 :: a.reverse) := by
    simp [List.reverse_append, List.append_assoc]
  rw [h2, List.dropWhile_cons, if_pos (by simp [isWs])]
  have h3 : (dg.reverse ++ 32 :: a.reverse).dropWhile isWs =
      dg.reverse ++ 32 :: a.reverse := by
    obtain ⟨y, u, hyu⟩ := List.exists_cons_of_ne_nil
      (show dg.reverse ≠ [] by simpa using hd)
    have hy : isWs y = false := by
      refine hD y (List.mem_reverse.mp ?_)
      rw [hyu]
      exact List.mem_cons_self y u
    rw [hyu, List.cons_append, List.dropWhile_cons, if_neg (by rw [hy]; simp)]
  rw [h3]
  simp [List.reverse_append, List.append_assoc]

/-- Non-whitespace bytes accumulate into the current `split` token. -/
theorem pySplitAux_nonws_accum :
    ∀ (a s cur : List Nat), (∀ x ∈ a, isWs x = false) →
      pySplitAux (a ++ s) cur = pySplitAux s (a.reverse ++ cur) := by
  intro a
  induction a with
  | nil => intro s cur _; simp
  | cons x t ih =>
    intro s cur h
    rw [List.cons_append,
      show pySplitAux (x :: (t ++ s)) cur = pySplitAux (t ++ s) (x :: cur) by
        simp [pySplitAux, h x (List.mem_cons_self x t)],
      ih s (x :: cur) (fun y hy => h y (List.mem_cons_of_mem x hy))]
    congr 1
    rw [List.reverse_cons, List.append_assoc]
    rfl

/-- A lone whitespace-free token splits as itself. -/
theorem pySplitAux_nil_token (dg : List Nat) (hd : dg ≠ [])
    (hD : ∀ x ∈ dg, isWs x = false) : pySplitAux dg [] = [dg] := by
  have h := pySplitAux_nonws_accum dg [] [] hD
  rw [List.append_nil] at h
  rw [h]
  unfold pySplitAux
  rw [List.append_nil, if_neg (by simpa using hd), List.reverse_reverse]

/-- A stripped entry line splits into exactly its two fields. -/
theorem pySplit_entry_token (a dg : List Nat) (ha : a ≠ [])
    (hA : ∀ x ∈ a, isWs x = false) (hd : dg ≠ [])
    (hD : ∀ x ∈ dg, isWs x = false) :
    pySplit (a ++ 32 :: dg) = [a, dg] := by
  unfold pySplit
  rw [pySplitAux_nonws_accum a (32 :: dg) [] hA, List.append_nil,
    show pySplitAux (32 :: dg) a.reverse = a.reverse.reverse :: pySplitAux dg [] by
      simp only [pySplitAux]
      rw [if_pos (by simp [isWs]), if_neg (by simpa using ha)],
    List.reverse_reverse, pySplitAux_nil_token dg hd hD]

/-- The line scanner of a concatenation of newline-terminated records yields
exactly those records. -/
theorem pySplitlines_flatten :
    ∀ (items : List (List Nat)),
      (∀ it ∈ items, ∃ body, it = body ++ [10] ∧ 10 ∉ body) →
      pySplitlines items.flatten = items := by
  intro items
  induction items with
  | nil =>
    intro _
    unfold pySplitlines
    rw [linesFrom_eq]
    simp
  | cons it rest ih =>
    intro h
    obtain ⟨body, hbody, hb10⟩ := h it (List.mem_cons_self it rest)
    subst hbody
    unfold pySplitlines
    rw [List.flatten_cons,
      linesFrom_append_left rest.flatten rfl 0 (by omega), List.map_append]
    have hone : linesFrom (body ++ [10]) 0 = [(0, body ++ [10])] := by
      rw [linesFrom_eq, if_pos (by simp)]
      have hnl : idxOfNl ((body ++ [10]).drop 0) = some body.length := by
        rw [List.drop_zero,
          idxOfNl_append_none [10] ((idxOfNl_eq_none_iff body).mpr hb10)]
        simp [idxOfNl]
      rw [readline_of_idxOfNl_some hnl]
      have htk : ((body ++ [10]).drop 0).take (body.length + 1) = body ++ [10] := by
        rw [List.drop_zero,
          show body.length + 1 = (body ++ [10]).length by simp]
        exact List.take_length _
      rw [htk]
      have hdone : linesFrom (body ++ [10]) (0 + body.length + 1) = [] := by
        rw [linesFrom_eq, if_neg (by simp)]
      rw [hdone]
    rw [hone]
    simp only [List.map_cons, List.map_nil, List.map_map, List.singleton_append]
    congr 1
    have hc : ((fun pl : Nat × List Nat => pl.2) ∘
        fun pl : Nat × List Nat => ((body ++ [10]).length + pl.1, pl.2)) =
        fun pl : Nat × List Nat => pl.2 := rfl
    rw [hc]
    have ih' := ih (fun x hx => h x (List.mem_cons_of_mem _ hx))
    unfold pySplitlines at ih'
    exact ih'

/-- Appending a fresh binding, the model of a first-time dict assignment. -/
theorem insertAssoc_not_mem {acc : List (List Nat × Int)} {k : List Nat} {v : Int}
    (h : k ∉ keysOf acc) : insertAssoc acc k v = acc ++ [(k, v)] := by
  induction acc with
  | nil => rfl
  | cons e t ih =>
    have hek : ¬ e.1 = k := by
      intro hc
      exact h (by rw [← hc]; exact List.mem_cons_self _ _)
    rw [insertAssoc, if_neg hek, List.cons_append,
      ih (fun hc => h (List.mem_cons_of_mem _ hc))]

/-- Folding fresh distinct bindings into an accumulator just appends them. -/
theorem foldl_insertAssoc :
    ∀ (es : List (List Nat × Int)) (acc : List (List Nat × Int)),
      (keysOf es).Nodup → (∀ k ∈ keysOf es, k ∉ keysOf acc) →
      es.foldl (fun a e => insertAssoc a e.1 e.2) acc = acc ++ es := by
  intro es
  induction es with
  | nil => intro acc _ _; simp
  | cons e rest ih =>
    intro acc hnd hdisj
    simp only [List.foldl_cons]
    have hek : e.1 ∉ keysOf acc := hdisj e.1 (by simp [keysOf])
    rw [insertAssoc_not_mem hek]
    have hnd' : (keysOf rest).Nodup ∧ e.1 ∉ keysOf rest := by
      have h0 := hnd
      simp only [keysOf, List.map_cons, List.nodup_cons] at h0
      exact ⟨h0.2, h0.1⟩
    rw [ih (acc ++ [(e.1, e.2)]) hnd'.1 ?_]
    · rw [List.append_assoc]
      congr 1
    · intro k hk
      rw [keysOf_append]
      intro hc
      rcases List.mem_append.mp hc with h1 | h1
      · exact hdisj k (List.mem_cons_of_mem _ hk) h1
      · have hke : k = e.1 := by simpa [keysOf] using h1
        subst hke
        exact hnd'.2 hk

/-- Loading the serialized lines of well-formed entries yields the dict fold. -/
theorem loadLines_serialize :
    ∀ (es : List (List Nat × Int)),
      (∀ e ∈ es, e.1 ≠ [] ∧ (∀ b ∈ e.1, isWs b = false) ∧ 0 ≤ e.2) →
      ∀ acc, loadLines (es.map (fun e => e.1 ++ 32 :: (intDigits e.2 ++ [10]))) acc =
        .ok (es.foldl (fun a e => insertAssoc a e.1 e.2) acc) := by
  intro es
  induction es with
  | nil => intro _ acc; rfl
  | cons e rest ih =>
    intro h acc
    obtain ⟨hne, hws, hnn⟩ := h e (List.mem_cons_self e rest)
    have hid : intDigits e.2 = natDigits e.2.toNat := by
      unfold intDigits
      rw [if_neg (by omega)]
    have hdne : natDigits e.2.toNat ≠ [] := natDigits_ne_nil _
    have hdws : ∀ b ∈ natDigits e.2.toNat, isWs b = false := natDigits_not_ws _
    rw [List.map_cons,
      loadLines_cons_entry _ _ _ e.1 (intDigits e.2) e.2
        (by rw [hid, pyStrip_entry e.1 (natDigits e.2.toNat) hne hws hdne hdws,
          pySplit_entry_token e.1 (natDigits e.2.toNat) hne hws hdne hdws])
        (by rw [hid, parseInt_natDigits, Int.toNat_of_nonneg hnn]),
      ih (fun e' he' => h e' (List.mem_cons_of_mem e he')) (insertAssoc acc e.1 e.2)]
    rfl

/-- Round trip: loading a serialized well-formed entry list restores it. -/
theorem load_serialize (es : List (List Nat × Int))
    (h : ∀ e ∈ es, e.1 ≠ [] ∧ (∀ b ∈ e.1, isWs b = false) ∧ 0 ≤ e.2)
    (hnd : (keysOf es).Nodup) :
    load_index (some (serializeEntries es)) = .ok es := by
  show loadLines (pySplitlines (serializeEntries es)) [] = .ok es
  have hsplit : pySplitlines (serializeEntries es) =
      es.map (fun e => e.1 ++ 32 :: (intDigits e.2 ++ [10])) := by
    unfold serializeEntries
    refine pySplitlines_flatten _ ?_
    intro it hit
    rcases List.mem_map.mp hit with ⟨e, he, rfl⟩
    obtain ⟨hne, hws, hnn⟩ := h e he
    refine ⟨e.1 ++ 32 :: intDigits e.2, ?_, ?_⟩
    · rw [List.append_assoc, List.cons_append]
    · intro hc
      rcases List.mem_append.mp hc with h1 | h1
      · have := hws 10 h1
        simp [isWs] at this
      · rcases List.mem_cons.mp h1 with h2 | h2
        · exact absurd h2 (by norm_num)
        · have hid : intDigits e.2 = natDigits e.2.toNat := by
            unfold intDigits
            rw [if_neg (by omega)]
          rw [hid] at h2
          have := natDigits_digit_bounds e.2.toNat 10 h2
          omega
  rw [hsplit, loadLines_serialize es h [], foldl_insertAssoc es [] hnd (by simp [keysOf]),
    List.nil_append]

/-- The watermark artifact written as a decimal reads back as itself. -/
theorem readWatermark_natDigits (n : Nat) :
    readWatermark (some (natDigits n)) = (n : Int) := by
  show (parseInt (pyStrip (natDigits n))).getD 0 = (n : Int)
  rw [pyStrip_of_not_ws (natDigits_not_ws n), parseInt_natDigits]
  rfl

/-- Boolean equality from propositional equivalence. -/
theorem bool_eq_of_iff {a b : Bool} (h : a = true ↔ b = true) : a = b := by
  cases a <;> cases b <;> simp_all

/-- Lookup success is key membership. -/
theorem lookupKey_isSome_iff_mem (l : List (List Nat × Int)) (k : List Nat) :
    (lookupKey l k).isSome = true ↔ k ∈ keysOf l :=
  ⟨mem_of_lookupKey_isSome, lookupKey_isSome_of_mem⟩

/-- Permutations of entry lists induce permutations of their key lists. -/
theorem keysOf_perm {l1 l2 : List (List Nat × Int)} (h : List.Perm l1 l2) :
    List.Perm (keysOf l1) (keysOf l2) := by
  unfold keysOf
  exact h.map (fun e => e.1)

/-- The entry sort is sorted by key. -/
theorem sortEntries_sorted (l : List (List Nat × Int)) :
    List.Pairwise entryLe (sortEntries l) := by
  haveI : IsTotal (List Nat × Int) entryLe := ⟨fun a b => by
    by_cases h : strLt b.1 a.1 = true
    · exact Or.inr (strLt_asymm h)
    · exact Or.inl (by simpa using h)⟩
  haveI : IsTrans (List Nat × Int) entryLe := ⟨fun a b c h1 h2 => by
    by_contra hca
    have hca' : strLt c.1 a.1 = true := by simpa using hca
    by_cases hcb : strLt c.1 b.1 = true
    · rw [h2] at hcb
      exact absurd hcb (by simp)
    · by_cases hbc : strLt b.1 c.1 = true
      · have hba : strLt b.1 a.1 = true := strLt_trans hbc hca'
        rw [h1] at hba
        exact absurd hba (by simp)
      · have hbceq : b.1 = c.1 := strLt_connex (by simpa using hbc) (by simpa using hcb)
        rw [← hbceq] at hca'
        rw [h1] at hca'
        exact absurd hca' (by simp)⟩
  exact List.sorted_insertionSort entryLe l

/-- A key-sorted list with distinct keys is strictly key-sorted. -/
theorem pairwise_entry_strict {l : List (List Nat × Int)}
    (hle : List.Pairwise entryLe l) (hnd : (keysOf l).Nodup) :
    List.Pairwise (fun e f : List Nat × Int => strLt e.1 f.1 = true) l := by
  have hne : List.Pairwise (fun e f : List Nat × Int => e.1 ≠ f.1) l := by
    have h0 : List.Pairwise (fun a b : List Nat => a ≠ b) (l.map (fun e => e.1)) := hnd
    exact (List.pairwise_map.mp h0)
  refine (hle.and hne).imp ?_
  rintro e f ⟨h1, h2⟩
  by_cases hef : strLt e.1 f.1 = true
  · exact hef
  · exact absurd (strLt_connex (by simpa using hef) h1) h2

/-- Sorting a concatenation whose left keys are all strictly below the right
keys sorts the parts independently. -/
theorem sortEntries_append_of_lt (a b : List (List Nat × Int))
    (hcross : ∀ x ∈ a, ∀ y ∈ b, strLt x.1 y.1 = true)
    (hnd : (keysOf (a ++ b)).Nodup) :
    sortEntries (a ++ b) = sortEntries a ++ sortEntries b := by
  have hp1 : List.Perm (sortEntries (a ++ b)) (a ++ b) :=
    List.perm_insertionSort entryLe (a ++ b)
  have hp2 : List.Perm (sortEntries a ++ sortEntries b) (a ++ b) :=
    List.Perm.append (List.perm_insertionSort entryLe a)
      (List.perm_insertionSort entryLe b)
  have hperm : List.Perm (sortEntries (a ++ b)) (sortEntries a ++ sortEntries b) :=
    hp1.trans hp2.symm
  have hnd1 : (keysOf (sortEntries (a ++ b))).Nodup :=
    (keysOf_perm hp1).nodup_iff.mpr hnd
  have hnd2 : (keysOf (sortEntries a ++ sortEntries b)).Nodup :=
    (keysOf_perm hp2).nodup_iff.mpr hnd
  have hs2 : List.Pairwise entryLe (sortEntries a ++ sortEntries b) := by
    rw [List.pairwise_append]
    refine ⟨sortEntries_sorted a, sortEntries_sorted b, ?_⟩
    intro x hx y hy
    have hxa : x ∈ a := (List.perm_insertionSort entryLe a).mem_iff.mp hx
    have hyb : y ∈ b := (List.perm_insertionSort entryLe b).mem_iff.mp hy
    exact strLt_asymm (hcross x hxa y hyb)
  haveI : IsAntisymm (List Nat × Int)
      (fun e f : List Nat × Int => strLt e.1 f.1 = true) := ⟨fun e f h1 h2 => by
    rw [strLt_asymm h1] at h2
    exact absurd h2 (by simp)⟩
  exact List.eq_of_perm_of_sorted hperm
    (pairwise_entry_strict (sortEntries_sorted (a ++ b)) hnd1)
    (pairwise_entry_strict hs2 hnd2)

/-- Serialization distributes over appending entry lists. -/
theorem serializeEntries_append (a b : List (List Nat × Int)) :
    serializeEntries (a ++ b) = serializeEntries a ++ serializeEntries b := by
  unfold serializeEntries
  rw [List.map_append, List.flatten_append]

/-- The update scan preserves distinctness of keys. -/
theorem foldl_updStep_keys_nodup (idx : List (List Nat × Int)) :
    ∀ (lines : List (Nat × List Nat)) (acc : List (List Nat × Int)),
      (keysOf acc).Nodup → (keysOf (lines.foldl (updStep idx) acc)).Nodup := by
  intro lines
  induction lines with
  | nil => intro acc h; exact h
  | cons pl rest ih =>
    intro acc h
    simp only [List.foldl_cons]
    apply ih
    rcases hk : lineKey pl.2 with _ | k
    · rw [updStep_none _ _ _ hk]
      exact h
    · by_cases hs : ((lookupKey idx k).isSome || (lookupKey acc k).isSome) = true
      · rw [updStep_some _ _ _ _ hk, if_pos hs]
        exact h
      · rw [updStep_some _ _ _ _ hk, if_neg hs, keysOf_append]
        have hor : ((lookupKey idx k).isSome || (lookupKey acc k).isSome) = false := by
          simpa using hs
        rcases Bool.or_eq_false_iff.mp hor with ⟨_, h6⟩
        have hkmem : k ∉ keysOf acc := by
          intro hc
          rw [lookupKey_isSome_of_mem hc] at h6
          exact absurd h6 (by simp)
        refine List.Nodup.append h (by simp [keysOf]) ?_
        intro x hx hmem
        have hxk : x = k := by simpa [keysOf] using hmem
        subst hxk
        exact hkmem hx

/-- Key membership after the update scan: the accumulator's keys plus the dates
of the scanned lines that are new relative to the prior index. -/
theorem foldl_updStep_key_mem (idx : List (List Nat × Int)) :
    ∀ (lines : List (Nat × List Nat)) (acc : List (List Nat × Int)) (k : List Nat),
      k ∈ keysOf (lines.foldl (updStep idx) acc) ↔
        k ∈ keysOf acc ∨
          (k ∈ lines.filterMap (fun pl => lineKey pl.2) ∧ lookupKey idx k = none) := by
  intro lines
  induction lines with
  | nil => intro acc k; simp
  | cons pl rest ih =>
    intro acc k
    simp only [List.foldl_cons]
    rcases hk : lineKey pl.2 with _ | k'
    · rw [updStep_none _ _ _ hk, ih acc k,
        @List.filterMap_cons_none (Nat × List Nat) (List Nat)
          (fun q => lineKey q.2) pl rest hk]
    · rw [@List.filterMap_cons_some (Nat × List Nat) (List Nat)
        (fun q => lineKey q.2) pl rest k' hk]
      by_cases hs : ((lookupKey idx k').isSome || (lookupKey acc k').isSome) = true
      · rw [updStep_some _ _ _ _ hk, if_pos hs, ih acc k]
        constructor
        · rintro (h1 | ⟨h2, h3⟩)
          · exact Or.inl h1
          · exact Or.inr ⟨List.mem_cons_of_mem _ h2, h3⟩
        · rintro (h1 | ⟨h2, h3⟩)
          · exact Or.inl h1
          · rcases List.mem_cons.mp h2 with rfl | h4
            · have hsi : (lookupKey idx k).isSome = false := by
                rw [h3]
                rfl
              have hsa : (lookupKey acc k).isSome = true := by
                rcases Bool.or_eq_true_iff.mp hs with h5 | h5
                · rw [hsi] at h5
                  exact absurd h5 (by simp)
                · exact h5
              exact Or.inl (mem_of_lookupKey_isSome hsa)
            · exact Or.inr ⟨h4, h3⟩
      · rw [updStep_some _ _ _ _ hk, if_neg hs, ih _ k, keysOf_append]
        have hor : ((lookupKey idx k').isSome || (lookupKey acc k').isSome) = false := by
          simpa using hs
        rcases Bool.or_eq_false_iff.mp hor with ⟨h5, _⟩
        have hidx : lookupKey idx k' = none := by
          cases hx : lookupKey idx k' with
          | none => rfl
          | some v =>
            rw [hx] at h5
            exact absurd h5 (by simp)
        constructor
        · rintro (h1 | ⟨h2, h3⟩)
          · rcases List.mem_append.mp h1 with h2 | h2
            · exact Or.inl h2
            · have hkk : k = k' := by simpa [keysOf] using h2
              subst hkk
              exact Or.inr ⟨List.mem_cons_self _ _, hidx⟩
          · exact Or.inr ⟨List.mem_cons_of_mem _ h2, h3⟩
        · rintro (h1 | ⟨h2, h3⟩)
          · exact Or.inl (List.mem_append_left _ h1)
          · rcases List.mem_cons.mp h2 with rfl | h4
            · exact Or.inl (List.mem_append_right _ (by simp [keysOf]))
            · exact Or.inr ⟨h4, h3⟩

/-- The length of a stored date key is exactly 10. -/
theorem lineKey_length {l k : List Nat} (h : lineKey l = some k) : k.length = 10 := by
  unfold lineKey at h
  split at h
  · exact absurd h (by simp)
  · next hlen =>
    injection h with h
    rw [← h, List.length_take]
    omega

/-- Entries produced by the build scan have 10-byte keys and nonnegative offsets. -/
theorem foldl_buildStep_entry_shape :
    ∀ (lines : List (Nat × List Nat)) (acc : List (List Nat × Int)),
      ∀ e ∈ lines.foldl buildStep acc, e ∈ acc ∨ (e.1.length = 10 ∧ 0 ≤ e.2) := by
  intro lines
  induction lines with
  | nil => intro acc e he; exact Or.inl he
  | cons pl rest ih =>
    intro acc e he
    simp only [List.foldl_cons] at he
    rcases ih (buildStep acc pl) e he with h1 | h1
    · rcases hk : lineKey pl.2 with _ | k
      · rw [show buildStep acc pl = acc by simp [buildStep, hk]] at h1
        exact Or.inl h1
      · by_cases hs : (lookupKey acc k).isSome = true
        · rw [show buildStep acc pl = acc by simp [buildStep, hk, hs]] at h1
          exact Or.inl h1
        · rw [show buildStep acc pl = acc ++ [(k, (pl.1 : Int))] by
            simp [buildStep, hk, hs]] at h1
          rcases List.mem_append.mp h1 with h2 | h2
          · exact Or.inl h2
          · rcases List.mem_singleton.mp h2 with rfl
            exact Or.inr ⟨lineKey_length hk, by simp⟩
    · exact Or.inr h1

/-- The file keys of a record-terminated file plus a suffix. -/
theorem fileKeys_decomp (f0 s : List Nat)
    (hterm : f0 = [] ∨ ∃ g, f0 = g ++ [10]) :
    fileKeys (f0 ++ s) = fileKeys f0 ++ fileKeys s := by
  unfold fileKeys
  rw [linesFrom_decomp f0 s hterm, List.filterMap_append, List.filterMap_map]
  rfl

/-- C7: for a newline-terminated log file extended by any suffix whose date keys
keep the whole file's key sequence non-decreasing (and whitespace-free, as the
`YYYY-MM-DD` format guarantees), running `update_index` on the extended file over
the artifacts of `build_index` on the original file produces exactly the
artifacts of a full `build_index` on the extended file. -/
theorem claim_C7 (f0 s : List Nat) (st : IndexFiles)
    (hterm : f0 = [] ∨ ∃ g, f0 = g ++ [10])
    (hclean : ∀ k ∈ fileKeys (f0 ++ s), ∀ b ∈ k, isWs b = false)
    (hmono : List.Pairwise dateLe (fileKeys (f0 ++ s))) :
    ∃ u, update_index (f0 ++ s) (build_index f0 st) =
      .ok (build_index (f0 ++ s) st, u) := by
  have hnd0 : (keysOf (buildScan f0)).Nodup :=
    foldl_buildStep_keys_nodup (by simp [keysOf])
  have hpermE : List.Perm (sortEntries (buildScan f0)) (buildScan f0) :=
    List.perm_insertionSort entryLe (buildScan f0)
  have hndE : (keysOf (sortEntries (buildScan f0))).Nodup :=
    (keysOf_perm hpermE).nodup_iff.mpr hnd0
  have hfK : fileKeys (f0 ++ s) = fileKeys f0 ++ fileKeys s :=
    fileKeys_decomp f0 s hterm
  have hkeysub : ∀ k ∈ keysOf (buildScan f0), k ∈ fileKeys f0 := by
    intro k hk
    rcases (foldl_buildStep_key_mem (linesFrom f0 0) [] k).mp hk with h2 | h2
    · simp [keysOf] at h2
    · exact h2
  have hshape : ∀ e ∈ sortEntries (buildScan f0),
      e.1 ≠ [] ∧ (∀ b ∈ e.1, isWs b = false) ∧ 0 ≤ e.2 := by
    intro e he
    have he' : e ∈ buildScan f0 := hpermE.mem_iff.mp he
    rcases foldl_buildStep_entry_shape (linesFrom f0 0) [] e he' with h1 | ⟨hlen, hnn⟩
    · simp at h1
    · refine ⟨?_, ?_, hnn⟩
      · intro hc
        rw [hc] at hlen
        simp at hlen
      · intro b hb
        refine hclean e.1 ?_ b hb
        rw [hfK]
        exact List.mem_append_left _ (hkeysub e.1 (mem_keysOf_of_mem he'))
  have hload : load_index (some (serializeEntries (sortEntries (buildScan f0)))) =
      .ok (sortEntries (buildScan f0)) :=
    load_serialize _ hshape hndE
  have hwm : readWatermark (some (natDigits f0.length)) = (f0.length : Int) :=
    readWatermark_natDigits f0.length
  by_cases hs0 : s = []
  · subst hs0
    refine ⟨.noNewLogs, ?_⟩
    rw [List.append_nil]
    simp only [update_index, build_index, hload, hwm]
    rw [if_pos (le_refl _)]
  · have hslen : 0 < s.length := List.length_pos.mpr hs0
    have hcond : ¬ (((f0 ++ s).length : Int) ≤ (f0.length : Int)) := by
      rw [List.length_append]
      push_cast
      omega
    have htn : ((f0.length : Int)).toNat = f0.length := by simp
    have hlines : linesFrom (f0 ++ s) f0.length =
        (linesFrom s 0).map (fun pl => (f0.length + pl.1, pl.2)) := by
      have h1 := linesFrom_append_right f0 s 0
      rwa [Nat.add_zero] at h1
    have hcongr : ((linesFrom s 0).map (fun pl => (f0.length + pl.1, pl.2))).foldl
          (updStep (sortEntries (buildScan f0))) [] =
        ((linesFrom s 0).map (fun pl => (f0.length + pl.1, pl.2))).foldl
          (updStep (buildScan f0)) [] :=
      foldl_updStep_congr (fun k => bool_eq_of_iff (by
        rw [lookupKey_isSome_iff_mem, lookupKey_isSome_iff_mem]
        exact ⟨fun h => (keysOf_perm hpermE).mem_iff.mp h,
          fun h => (keysOf_perm hpermE).mem_iff.mpr h⟩)) _ _
    have hbuild : buildScan (f0 ++ s) =
        buildScan f0 ++
          ((linesFrom s 0).map (fun pl => (f0.length + pl.1, pl.2))).foldl
            (updStep (buildScan f0)) [] := by
      unfold buildScan
      rw [linesFrom_decomp f0 s hterm, List.foldl_append]
      have h1 := foldl_buildStep_eq_updStep
        ((linesFrom s 0).map (fun pl => (f0.length + pl.1, pl.2)))
        ((linesFrom f0 0).foldl buildStep []) []
      rw [List.append_nil] at h1
      exact h1
    have hnewkeys : ∀ k ∈ keysOf (((linesFrom s 0).map
          (fun pl => (f0.length + pl.1, pl.2))).foldl (updStep (buildScan f0)) []),
        k ∈ fileKeys s ∧ lookupKey (buildScan f0) k = none := by
      intro k hk
      rcases (foldl_updStep_key_mem (buildScan f0) _ [] k).mp hk with h2 | ⟨h2, h3⟩
      · simp [keysOf] at h2
      · refine ⟨?_, h3⟩
        have hfm : ((linesFrom s 0).map (fun pl => (f0.length + pl.1, pl.2))).filterMap
            (fun pl => lineKey pl.2) = fileKeys s := by
          rw [List.filterMap_map]
          rfl
        rwa [hfm] at h2
    have hcross : ∀ x ∈ buildScan f0,
        ∀ y ∈ ((linesFrom s 0).map (fun pl => (f0.length + pl.1, pl.2))).foldl
          (updStep (buildScan f0)) [],
        strLt x.1 y.1 = true := by
      intro x hx y hy
      have hxk : x.1 ∈ fileKeys f0 := hkeysub x.1 (mem_keysOf_of_mem hx)
      have hyk := hnewkeys y.1 (mem_keysOf_of_mem hy)
      have hxy : strLt y.1 x.1 = false := by
        have hpa := (List.pairwise_append.mp (hfK ▸ hmono)).2.2
        exact hpa x.1 hxk y.1 hyk.1
      have hne : x.1 ≠ y.1 := by
        intro hc
        rw [← hc] at hyk
        exact ((lookupKey_eq_none_iff _ _).mp hyk.2) (mem_keysOf_of_mem hx)
      by_cases hlt : strLt x.1 y.1 = true
      · exact hlt
      · exact absurd (strLt_connex (by simpa using hlt) hxy) hne
    have hnddisj : (keysOf (buildScan f0 ++
        ((linesFrom s 0).map (fun pl => (f0.length + pl.1, pl.2))).foldl
          (updStep (buildScan f0)) [])).Nodup := by
      rw [keysOf_append]
      refine List.Nodup.append hnd0
        (foldl_updStep_keys_nodup _ _ [] (by simp [keysOf])) ?_
      intro k hk1 hk2
      exact ((lookupKey_eq_none_iff _ _).mp (hnewkeys k hk2).2) hk1
    by_cases hnew : ((linesFrom s 0).map (fun pl => (f0.length + pl.1, pl.2))).foldl
        (updStep (sortEntries (buildScan f0))) [] = []
    · refine ⟨.noNewDates, ?_⟩
      simp only [update_index, build_index, hload, hwm, htn, hlines]
      rw [if_neg hcond, if_pos hnew]
      have hnewB : ((linesFrom s 0).map (fun pl => (f0.length + pl.1, pl.2))).foldl
          (updStep (buildScan f0)) [] = [] := by
        rw [← hcongr]
        exact hnew
      have hbuild2 : buildScan (f0 ++ s) = buildScan f0 := by
        rw [hbuild, hnewB, List.append_nil]
      rw [hbuild2]
    · refine ⟨.updated, ?_⟩
      simp only [update_index, build_index, hload, hwm, htn, hlines]
      rw [if_neg hcond, if_neg hnew, hcongr]
      have hsorteq : sortEntries (buildScan (f0 ++ s)) =
          sortEntries (buildScan f0) ++
            sortEntries (((linesFrom s 0).map (fun pl => (f0.length + pl.1, pl.2))).foldl
              (updStep (buildScan f0)) []) := by
        rw [hbuild]
        exact sortEntries_append_of_lt _ _ hcross hnddisj
      rw [hsorteq, serializeEntries_append]
      simp

/-- C7 witness: building on a two-line file and updating after a one-line
append equals a full build on the three-line file. -/
theorem claim_C7_witness :
    ∃ u, update_index ((exL0 ++ exL1) ++ exL2)
        (build_index (exL0 ++ exL1) (IndexFiles.mk none none)) =
      .ok (build_index ((exL0 ++ exL1) ++ exL2) (IndexFiles.mk none none), u) :=
  claim_C7 (exL0 ++ exL1) exL2 (IndexFiles.mk none none)
    (Or.inr ⟨strBytes ("2024-01-01 aa\n2024-01-01 bb"), by decide⟩)
    (by decide) (by decide)
